import Mathlib

/-!
# Verification of the Tink JWT core (C++ sources)

Shallow embedding of `cc/jwt/raw_jwt.cc` and
`cc/jwt/internal/jwt_mac_impl.cc`, together with the collaborators those
files call into.  C++ `std::string` is a byte string, so strings are
modelled as `List Nat` of byte values; JSON numbers are modelled at the
integral values the library actually stores (the builder stores
`static_cast<int>(absl::ToUnixSeconds(t))`, an integer).

Components whose implementation is not part of the source excerpt
(`jwt_format.cc`, `json_util.cc`, `jwt_validator.cc`, the base64url codec
from absl) are modelled from the specification; each such definition is
marked `Modelled from the spec:` in its doc comment.

Error statuses: the C++ code returns `util::Status` values; following the
spec's error taxonomy (§7), each distinct error site is mapped to a named
error kind (`util::error::NOT_FOUND` ↦ `notFound`,
`util::error::INVALID_ARGUMENT` in the claim accessors ↦ `invalidArgument`,
the token-structure failures of `jwt_mac_impl.cc` ↦ `malformedToken`, the
MAC primitive's rejection ↦ `invalidMac`, and so on).
-/

namespace Tink

/-- A C++ `std::string`: a sequence of bytes.  Bytes are `Nat` values;
genuine bytes are below 256 (`ByteOk`). -/
abbrev Str := List Nat

/-- Nat string literal helper: code points of an ASCII Lean string. -/
def lit (s : String) : Str := s.data.map Char.toNat

/-- All bytes of a string are genuine bytes (below 256). -/
def ByteOk (s : Str) : Prop := ∀ b ∈ s, b < 256

instance : DecidablePred ByteOk := fun s =>
  inferInstanceAs (Decidable (∀ b ∈ s, b < 256))

instance {ε α : Type} [DecidableEq ε] [DecidableEq α] :
    DecidableEq (Except ε α) := fun a b =>
  match a, b with
  | .ok x, .ok y =>
    if h : x = y then isTrue (by rw [h])
    else isFalse (by intro hc; cases hc; exact h rfl)
  | .error x, .error y =>
    if h : x = y then isTrue (by rw [h])
    else isFalse (by intro hc; cases hc; exact h rfl)
  | .ok _, .error _ => isFalse (by intro hc; cases hc)
  | .error _, .ok _ => isFalse (by intro hc; cases hc)

/-- Error kinds surfaced by the library, following the spec's taxonomy
(§7) for the `util::Status` values the C++ code returns. -/
inductive JwtError where
  | invalidArgument
  | notFound
  | malformedToken
  | invalidHeader
  | algorithmMismatch
  | invalidMac
  | tokenExpired
  | notYetValid
  | issuerMismatch
  | subjectMismatch
  | audienceMismatch
  deriving DecidableEq, Repr

mutual
/-- `google::protobuf::Value`: the tagged JSON value consumed by
`raw_jwt.cc`.  Numbers are modelled at integral values. -/
inductive JsonValue where
  | nullValue
  | boolValue (b : Bool)
  | numberValue (n : Int)
  | stringValue (s : Str)
  | listValue (vs : JsonList)
  | structValue (fs : JsonFields)
  deriving DecidableEq

/-- `google::protobuf::ListValue`: an ordered sequence of JSON values. -/
inductive JsonList where
  | nil
  | cons (v : JsonValue) (vs : JsonList)
  deriving DecidableEq

/-- The field map of a `google::protobuf::Struct`: claim name to value,
in insertion order (key uniqueness is the map invariant). -/
inductive JsonFields where
  | nil
  | cons (k : Str) (v : JsonValue) (fs : JsonFields)
  deriving DecidableEq
end

namespace JsonFields

/-- Map lookup (`fields.find(name)`); first matching key wins. -/
def find? : JsonFields → Str → Option JsonValue
  | .nil, _ => none
  | .cons k v fs, name => if k = name then some v else find? fs name

/-- Map membership (`fields.contains(name)`). -/
def containsKey (fs : JsonFields) (name : Str) : Bool :=
  (find? fs name).isSome

/-- Map insert-or-assign (`(*fields)[name] = value`): replaces the value
in place if the key is present, otherwise appends. -/
def set : JsonFields → Str → JsonValue → JsonFields
  | .nil, name, v => .cons name v .nil
  | .cons k v0 fs, name, v =>
    if k = name then .cons k v fs else .cons k v0 (set fs name v)

/-- Keys are pairwise distinct (the invariant of a protobuf map). -/
def nodupKeys : JsonFields → Bool
  | .nil => true
  | .cons k _ fs => !containsKey fs k && nodupKeys fs

end JsonFields

namespace JsonList

/-- Append a single element (`list_value->add_values()`). -/
def snoc : JsonList → JsonValue → JsonList
  | .nil, v => .cons v .nil
  | .cons w vs, v => .cons w (snoc vs v)

end JsonList

/-! ## JSON text: serialization

Modelled from the spec: `ProtoStructToJsonString` (`json_util.cc` is not
in the source excerpt).  §4.2: serialize in a deterministic, minimal form
(no insignificant whitespace); string contents are escaped minimally
(quote and backslash). -/

/-- Decimal digits of a natural number, most significant first
(fuel-driven; `natToDigits` supplies sufficient fuel). -/
def natToDigitsAux : Nat → Nat → Str
  | 0, _ => []
  | fuel+1, n =>
    if n < 10 then [48 + n] else natToDigitsAux fuel (n / 10) ++ [48 + n % 10]

/-- Decimal digit string of a natural number. -/
def natToDigits (n : Nat) : Str := natToDigitsAux (n + 1) n

/-- Minimal JSON serialization of an integer. -/
def serInt (n : Int) : Str :=
  if n < 0 then 45 :: natToDigits n.natAbs else natToDigits n.toNat

/-- JSON string-body escaping: quote (34) and backslash (92) get a
backslash prefix; all other bytes are emitted verbatim. -/
def escapeStr : Str → Str
  | [] => []
  | c :: s => if c = 34 ∨ c = 92 then 92 :: c :: escapeStr s else c :: escapeStr s

mutual
/-- Modelled from the spec: serialize a JSON value to its minimal text
(§4.2), as `ProtoStructToJsonString` does for each kind. -/
def serV : JsonValue → Str
  | .nullValue => [110, 117, 108, 108]
  | .boolValue true => [116, 114, 117, 101]
  | .boolValue false => [102, 97, 108, 115, 101]
  | .numberValue n => serInt n
  | .stringValue s => 34 :: escapeStr s ++ [34]
  | .listValue .nil => [91, 93]
  | .listValue (.cons v vs) => 91 :: (serV v ++ serElems vs ++ [93])
  | .structValue .nil => [123, 125]
  | .structValue (.cons k v fs) => 123 :: (serMember k v ++ serMembers fs ++ [125])

/-- Remaining array elements, each preceded by a comma (44). -/
def serElems : JsonList → Str
  | .nil => []
  | .cons v vs => 44 :: serV v ++ serElems vs

/-- One object member: `"key":value`. -/
def serMember (k : Str) (v : JsonValue) : Str :=
  34 :: escapeStr k ++ [34, 58] ++ serV v

/-- Remaining object members, each preceded by a comma (44). -/
def serMembers : JsonFields → Str
  | .nil => []
  | .cons k v fs => 44 :: serMember k v ++ serMembers fs
end

/-! ## JSON text: parsing

Modelled from the spec: `JsonStringToProtoStruct` / `JsonStringToProtoList`
(`json_util.cc` is not in the source excerpt).  §4.2: fail on any syntax
error, on duplicate keys within the same object, or on trailing content.
The parser is a fueled recursive-descent parser over the byte string; the
top-level entry points supply fuel exceeding the input length. -/

/-- Is the byte an ASCII decimal digit? -/
def isDigitB (c : Nat) : Bool := 48 ≤ c && c ≤ 57

/-- Consume a maximal run of decimal digits, accumulating their value. -/
def parseDigitsAux : Str → Nat → Nat × Str
  | [], acc => (acc, [])
  | c :: rest, acc =>
    if isDigitB c then parseDigitsAux rest (acc * 10 + (c - 48)) else (acc, c :: rest)

/-- Match an expected byte sequence at the head of the input. -/
def expectB : Str → Str → Option Str
  | [], s => some s
  | e :: es, c :: s => if c = e then expectB es s else none
  | _ :: _, [] => none

/-- Parse a JSON string body (after the opening quote) up to the closing
quote, undoing the minimal escaping of `escapeStr`. -/
def parseStringBody : Str → Option (Str × Str)
  | [] => none
  | c :: rest =>
    if c = 34 then some ([], rest)
    else if c = 92 then
      match rest with
      | [] => none
      | e :: rest2 =>
        if e = 34 ∨ e = 92 then
          (parseStringBody rest2).map fun p => (e :: p.1, p.2)
        else none
    else (parseStringBody rest).map fun p => (c :: p.1, p.2)

mutual
/-- Parse one JSON value from the head of the input. -/
def parseValue : Nat → Str → Option (JsonValue × Str)
  | 0, _ => none
  | _+1, [] => none
  | fuel+1, c :: rest =>
    if c = 110 then
      (expectB [117, 108, 108] rest).map fun r => (.nullValue, r)
    else if c = 116 then
      (expectB [114, 117, 101] rest).map fun r => (.boolValue true, r)
    else if c = 102 then
      (expectB [97, 108, 115, 101] rest).map fun r => (.boolValue false, r)
    else if c = 34 then
      (parseStringBody rest).map fun p => (.stringValue p.1, p.2)
    else if c = 45 then
      match rest with
      | d :: _ =>
        if isDigitB d then
          let p := parseDigitsAux rest 0
          some (.numberValue (-(p.1 : Int)), p.2)
        else none
      | [] => none
    else if c = 91 then
      match rest with
      | c2 :: r =>
        if c2 = 93 then some (.listValue .nil, r)
        else (parseElems fuel rest).map fun p => (.listValue p.1, p.2)
      | [] => none
    else if c = 123 then
      match rest with
      | c2 :: r =>
        if c2 = 125 then some (.structValue .nil, r)
        else (parseMembers fuel rest).map fun p => (.structValue p.1, p.2)
      | [] => none
    else if isDigitB c then
      let p := parseDigitsAux (c :: rest) 0
      some (.numberValue (p.1 : Int), p.2)
    else none

/-- Parse a non-empty comma-separated element list and the closing `]`. -/
def parseElems : Nat → Str → Option (JsonList × Str)
  | 0, _ => none
  | fuel+1, s =>
    match parseValue fuel s with
    | some (v, c :: rest) =>
      if c = 44 then (parseElems fuel rest).map fun p => (.cons v p.1, p.2)
      else if c = 93 then some (.cons v .nil, rest)
      else none
    | _ => none

/-- Parse a non-empty comma-separated member list and the closing brace;
duplicate keys are rejected. -/
def parseMembers : Nat → Str → Option (JsonFields × Str)
  | 0, _ => none
  | fuel+1, s =>
    match s with
    | c0 :: rest =>
      if c0 = 34 then
        match parseStringBody rest with
        | some (key, c1 :: rest2) =>
          if c1 = 58 then
            match parseValue fuel rest2 with
            | some (v, c2 :: rest3) =>
              if c2 = 44 then
                match parseMembers fuel rest3 with
                | some (fs, r) =>
                  if fs.containsKey key then none
                  else some (.cons key v fs, r)
                | none => none
              else if c2 = 125 then some (.cons key v .nil, rest3)
              else none
            | _ => none
          else none
        | _ => none
      else none
    | [] => none
end

/-- Modelled from the spec: `JsonStringToProtoStruct` — parse a byte
string as a JSON object with no trailing content (§4.2). -/
def JsonStringToProtoStruct (s : Str) : Option JsonFields :=
  match parseValue (s.length + 1) s with
  | some (.structValue fs, []) => some fs
  | _ => none

/-- Modelled from the spec: `JsonStringToProtoList` — parse a byte string
as a JSON array with no trailing content (§4.2). -/
def JsonStringToProtoList (s : Str) : Option JsonList :=
  match parseValue (s.length + 1) s with
  | some (.listValue vs, []) => some vs
  | _ => none

/-! ### Structural measures and representation invariants -/

mutual
/-- Structural size of a JSON value, used as parser fuel. -/
def jsizeV : JsonValue → Nat
  | .nullValue => 1
  | .boolValue _ => 1
  | .numberValue _ => 1
  | .stringValue _ => 1
  | .listValue vs => 1 + jsizeL vs
  | .structValue fs => 1 + jsizeF fs

/-- Structural size of a JSON list. -/
def jsizeL : JsonList → Nat
  | .nil => 0
  | .cons v vs => 1 + jsizeV v + jsizeL vs

/-- Structural size of a field map. -/
def jsizeF : JsonFields → Nat
  | .nil => 0
  | .cons _ v fs => 1 + jsizeV v + jsizeF fs
end

mutual
/-- Representation invariant of `google::protobuf::Value`: every nested
`Struct` is a map, so its keys are pairwise distinct. -/
def wfV : JsonValue → Bool
  | .listValue vs => wfL vs
  | .structValue fs => fs.nodupKeys && wfF fs
  | _ => true

/-- Representation invariant, on lists. -/
def wfL : JsonList → Bool
  | .nil => true
  | .cons v vs => wfV v && wfL vs

/-- Representation invariant, on field maps (values only; the key
uniqueness of `fs` itself is `nodupKeys`). -/
def wfF : JsonFields → Bool
  | .nil => true
  | .cons _ v fs => wfV v && wfF fs
end

/-- All bytes of the string are genuine bytes (below 256), as in any C++
`std::string`. -/
def strOk (s : Str) : Bool := s.all (· < 256)

mutual
/-- Representation invariant: every string and key in the value holds
genuine bytes. -/
def bytesOkV : JsonValue → Bool
  | .stringValue s => strOk s
  | .listValue vs => bytesOkL vs
  | .structValue fs => bytesOkF fs
  | _ => true

/-- Genuine-bytes invariant, on lists. -/
def bytesOkL : JsonList → Bool
  | .nil => true
  | .cons v vs => bytesOkV v && bytesOkL vs

/-- Genuine-bytes invariant, on field maps. -/
def bytesOkF : JsonFields → Bool
  | .nil => true
  | .cons k v fs => strOk k && bytesOkV v && bytesOkF fs
end

/-! ## Base64url codec

Modelled from the spec: the URL-safe base64 alphabet without padding
(§4.1): encode removes padding; decode accepts only alphabet bytes plus an
optional trailing run of `=`, and requires length mod 4 ∈ {0,2,3} after
stripping padding. -/

/-- The URL- and filename-safe base64 alphabet, as bytes. -/
def b64Alphabet : Str :=
  lit "ABCDEFGHIJKLMNOPQRSTUVWXYZabcdefghijklmnopqrstuvwxyz0123456789-_"

/-- The alphabet byte for a 6-bit group. -/
def b64Char (n : Nat) : Nat := b64Alphabet.getD n 65

/-- The 6-bit group of an alphabet byte, if any. -/
def b64Index (c : Nat) : Option Nat := b64Alphabet.indexOf? c

/-- Base64url-encode a byte sequence, without padding. -/
def base64UrlEncode : Str → Str
  | [] => []
  | [b1] => [b64Char (b1 / 4), b64Char (b1 % 4 * 16)]
  | [b1, b2] =>
    [b64Char (b1 / 4), b64Char (b1 % 4 * 16 + b2 / 16), b64Char (b2 % 16 * 4)]
  | b1 :: b2 :: b3 :: rest =>
    b64Char (b1 / 4) :: b64Char (b1 % 4 * 16 + b2 / 16) ::
      b64Char (b2 % 16 * 4 + b3 / 64) :: b64Char (b3 % 64) :: base64UrlEncode rest

/-- Decode groups of alphabet bytes: full groups of four, a final group
of two or three; a final group of one is invalid, as is any byte outside
the alphabet.  The unused low bits of the final byte are discarded, as in
standard base64 decoding. -/
def base64UrlDecodeCore : Str → Option Str
  | [] => some []
  | [c1, c2] => do
    let i1 ← b64Index c1
    let i2 ← b64Index c2
    pure [i1 * 4 + i2 / 16]
  | [c1, c2, c3] => do
    let i1 ← b64Index c1
    let i2 ← b64Index c2
    let i3 ← b64Index c3
    pure [i1 * 4 + i2 / 16, i2 % 16 * 16 + i3 / 4]
  | c1 :: c2 :: c3 :: c4 :: rest => do
    let i1 ← b64Index c1
    let i2 ← b64Index c2
    let i3 ← b64Index c3
    let i4 ← b64Index c4
    let tail ← base64UrlDecodeCore rest
    pure ((i1 * 4 + i2 / 16) :: (i2 % 16 * 16 + i3 / 4) :: (i3 % 4 * 64 + i4) :: tail)
  | [_] => none

/-- Strip an optional trailing run of `=` (61), tolerated on decode. -/
def stripPadding (s : Str) : Str :=
  (s.reverse.dropWhile (· = 61)).reverse

/-- Modelled from the spec: strict base64url decode (§4.1). -/
def base64UrlDecode (s : Str) : Option Str :=
  base64UrlDecodeCore (stripPadding s)

/-! ## Registered claim names (`jwt_names.h`) and `RawJwt` (`raw_jwt.cc`) -/

def kJwtClaimIssuer : Str := lit "iss"
def kJwtClaimSubject : Str := lit "sub"
def kJwtClaimAudience : Str := lit "aud"
def kJwtClaimExpiration : Str := lit "exp"
def kJwtClaimNotBefore : Str := lit "nbf"
def kJwtClaimIssuedAt : Str := lit "iat"
def kJwtClaimJwtId : Str := lit "jti"

/-- `IsRegisteredClaimName` (`raw_jwt.cc`). -/
def IsRegisteredClaimName (name : Str) : Bool :=
  name = kJwtClaimIssuer || name = kJwtClaimSubject ||
    name = kJwtClaimAudience || name = kJwtClaimExpiration ||
    name = kJwtClaimNotBefore || name = kJwtClaimIssuedAt ||
    name = kJwtClaimJwtId

/-- `ValidatePayloadName` (`raw_jwt.cc`): a registered name may not be
used for a custom claim. -/
def ValidatePayloadName (name : Str) : Except JwtError Unit :=
  if IsRegisteredClaimName name then .error .invalidArgument else .ok ()

/-- `RawJwt`: owns one JSON object (`google::protobuf::Struct`). -/
structure RawJwt where
  json : JsonFields
  deriving DecidableEq

/-- `static_cast<int>` of a 64-bit count of seconds: two's-complement
wrap to 32 bits, as performed by the builder's time setters. -/
def toInt32 (n : Int) : Int := (n + 2147483648) % 4294967296 - 2147483648

namespace RawJwt

/-- `RawJwt::FromString`: parse a JSON payload.  A parse failure is a
`MalformedToken` per the spec's taxonomy (§7). -/
def FromString (jsonString : Str) : Except JwtError RawJwt :=
  match JsonStringToProtoStruct jsonString with
  | some fs => .ok ⟨fs⟩
  | none => .error .malformedToken

/-- `RawJwt::ToString`: serialize the claim set to JSON text. -/
def ToString (jwt : RawJwt) : Except JwtError Str :=
  .ok (serV (.structValue jwt.json))

/-- `RawJwt::HasIssuer`. -/
def HasIssuer (jwt : RawJwt) : Bool := jwt.json.containsKey kJwtClaimIssuer

/-- `RawJwt::GetIssuer`: absent or non-string issuer is
`INVALID_ARGUMENT`. -/
def GetIssuer (jwt : RawJwt) : Except JwtError Str :=
  match jwt.json.find? kJwtClaimIssuer with
  | none => .error .invalidArgument
  | some (.stringValue s) => .ok s
  | some _ => .error .invalidArgument

/-- `RawJwt::HasSubject`. -/
def HasSubject (jwt : RawJwt) : Bool := jwt.json.containsKey kJwtClaimSubject

/-- `RawJwt::GetSubject`: absent or non-string subject is
`INVALID_ARGUMENT`. -/
def GetSubject (jwt : RawJwt) : Except JwtError Str :=
  match jwt.json.find? kJwtClaimSubject with
  | none => .error .invalidArgument
  | some (.stringValue s) => .ok s
  | some _ => .error .invalidArgument

/-- Extract a list of strings from a `ListValue`, failing on any
non-string element, as the loop in `RawJwt::GetAudiences` does. -/
def audiencesOf : JsonList → Except JwtError (List Str)
  | .nil => .ok []
  | .cons (.stringValue s) vs =>
    match audiencesOf vs with
    | .ok rest => .ok (s :: rest)
    | .error e => .error e
  | .cons _ _ => .error .invalidArgument

/-- `RawJwt::HasAudiences`. -/
def HasAudiences (jwt : RawJwt) : Bool := jwt.json.containsKey kJwtClaimAudience

/-- `RawJwt::GetAudiences`: absent is `NOT_FOUND`; a non-list value
(including a single JSON string) is `INVALID_ARGUMENT`; a list with a
non-string element is `INVALID_ARGUMENT`. -/
def GetAudiences (jwt : RawJwt) : Except JwtError (List Str) :=
  match jwt.json.find? kJwtClaimAudience with
  | none => .error .notFound
  | some (.listValue vs) => audiencesOf vs
  | some _ => .error .invalidArgument

/-- `RawJwt::HasJwtId`. -/
def HasJwtId (jwt : RawJwt) : Bool := jwt.json.containsKey kJwtClaimJwtId

/-- `RawJwt::GetJwtId`: absent is `NOT_FOUND`; non-string is
`INVALID_ARGUMENT`. -/
def GetJwtId (jwt : RawJwt) : Except JwtError Str :=
  match jwt.json.find? kJwtClaimJwtId with
  | none => .error .notFound
  | some (.stringValue s) => .ok s
  | some _ => .error .invalidArgument

/-- `RawJwt::HasExpiration`. -/
def HasExpiration (jwt : RawJwt) : Bool :=
  jwt.json.containsKey kJwtClaimExpiration

/-- `RawJwt::GetExpiration`: absent is `NOT_FOUND`; non-number is
`INVALID_ARGUMENT`. -/
def GetExpiration (jwt : RawJwt) : Except JwtError Int :=
  match jwt.json.find? kJwtClaimExpiration with
  | none => .error .notFound
  | some (.numberValue n) => .ok n
  | some _ => .error .invalidArgument

/-- `RawJwt::HasNotBefore`. -/
def HasNotBefore (jwt : RawJwt) : Bool :=
  jwt.json.containsKey kJwtClaimNotBefore

/-- `RawJwt::GetNotBefore`: absent is `NOT_FOUND`; non-number is
`INVALID_ARGUMENT`. -/
def GetNotBefore (jwt : RawJwt) : Except JwtError Int :=
  match jwt.json.find? kJwtClaimNotBefore with
  | none => .error .notFound
  | some (.numberValue n) => .ok n
  | some _ => .error .invalidArgument

/-- `RawJwt::HasIssuedAt`. -/
def HasIssuedAt (jwt : RawJwt) : Bool :=
  jwt.json.containsKey kJwtClaimIssuedAt

/-- `RawJwt::GetIssuedAt`: absent is `NOT_FOUND`; non-number is
`INVALID_ARGUMENT`. -/
def GetIssuedAt (jwt : RawJwt) : Except JwtError Int :=
  match jwt.json.find? kJwtClaimIssuedAt with
  | none => .error .notFound
  | some (.numberValue n) => .ok n
  | some _ => .error .invalidArgument

end RawJwt

/-! ## `RawJwtBuilder` (`raw_jwt.cc`) -/

/-- `RawJwtBuilder`: accumulates a `google::protobuf::Struct`. -/
structure RawJwtBuilder where
  json : JsonFields
  deriving DecidableEq

namespace RawJwtBuilder

/-- `RawJwtBuilder::SetIssuer`. -/
def SetIssuer (b : RawJwtBuilder) (issuer : Str) : RawJwtBuilder :=
  ⟨b.json.set kJwtClaimIssuer (.stringValue issuer)⟩

/-- `RawJwtBuilder::SetSubject`. -/
def SetSubject (b : RawJwtBuilder) (subject : Str) : RawJwtBuilder :=
  ⟨b.json.set kJwtClaimSubject (.stringValue subject)⟩

/-- `RawJwtBuilder::AddAudience`: `fields->insert` keeps an existing
entry; `mutable_list_value()` clears a non-list value; then the audience
is appended. -/
def AddAudience (b : RawJwtBuilder) (audience : Str) : RawJwtBuilder :=
  let cur : JsonList :=
    match b.json.find? kJwtClaimAudience with
    | some (.listValue vs) => vs
    | _ => .nil
  ⟨b.json.set kJwtClaimAudience (.listValue (cur.snoc (.stringValue audience)))⟩

/-- `RawJwtBuilder::SetJwtId`. -/
def SetJwtId (b : RawJwtBuilder) (jwid : Str) : RawJwtBuilder :=
  ⟨b.json.set kJwtClaimJwtId (.stringValue jwid)⟩

/-- `RawJwtBuilder::SetExpiration`: stores
`static_cast<int>(absl::ToUnixSeconds(expiration))` unconditionally. -/
def SetExpiration (b : RawJwtBuilder) (expiration : Int) : RawJwtBuilder :=
  ⟨b.json.set kJwtClaimExpiration (.numberValue (toInt32 expiration))⟩

/-- `RawJwtBuilder::SetNotBefore`: stores the 32-bit cast seconds
unconditionally. -/
def SetNotBefore (b : RawJwtBuilder) (notBefore : Int) : RawJwtBuilder :=
  ⟨b.json.set kJwtClaimNotBefore (.numberValue (toInt32 notBefore))⟩

/-- `RawJwtBuilder::SetIssuedAt`: stores the 32-bit cast seconds
unconditionally. -/
def SetIssuedAt (b : RawJwtBuilder) (issuedAt : Int) : RawJwtBuilder :=
  ⟨b.json.set kJwtClaimIssuedAt (.numberValue (toInt32 issuedAt))⟩

/-- `RawJwtBuilder::AddNullClaim`. -/
def AddNullClaim (b : RawJwtBuilder) (name : Str) :
    Except JwtError RawJwtBuilder :=
  match ValidatePayloadName name with
  | .error e => .error e
  | .ok _ => .ok ⟨b.json.set name .nullValue⟩

/-- `RawJwtBuilder::AddBooleanClaim`. -/
def AddBooleanClaim (b : RawJwtBuilder) (name : Str) (boolValue : Bool) :
    Except JwtError RawJwtBuilder :=
  match ValidatePayloadName name with
  | .error e => .error e
  | .ok _ => .ok ⟨b.json.set name (.boolValue boolValue)⟩

/-- `RawJwtBuilder::AddStringClaim`. -/
def AddStringClaim (b : RawJwtBuilder) (name : Str) (stringValue : Str) :
    Except JwtError RawJwtBuilder :=
  match ValidatePayloadName name with
  | .error e => .error e
  | .ok _ => .ok ⟨b.json.set name (.stringValue stringValue)⟩

/-- `RawJwtBuilder::AddNumberClaim` (at an integral value). -/
def AddNumberClaim (b : RawJwtBuilder) (name : Str) (doubleValue : Int) :
    Except JwtError RawJwtBuilder :=
  match ValidatePayloadName name with
  | .error e => .error e
  | .ok _ => .ok ⟨b.json.set name (.numberValue doubleValue)⟩

/-- `RawJwtBuilder::AddJsonObjectClaim`: the text must parse as a JSON
object. -/
def AddJsonObjectClaim (b : RawJwtBuilder) (name : Str) (objectValue : Str) :
    Except JwtError RawJwtBuilder :=
  match ValidatePayloadName name with
  | .error e => .error e
  | .ok _ =>
    match JsonStringToProtoStruct objectValue with
    | some fs => .ok ⟨b.json.set name (.structValue fs)⟩
    | none => .error .malformedToken

/-- `RawJwtBuilder::AddJsonArrayClaim`: the text must parse as a JSON
array. -/
def AddJsonArrayClaim (b : RawJwtBuilder) (name : Str) (arrayValue : Str) :
    Except JwtError RawJwtBuilder :=
  match ValidatePayloadName name with
  | .error e => .error e
  | .ok _ =>
    match JsonStringToProtoList arrayValue with
    | some vs => .ok ⟨b.json.set name (.listValue vs)⟩
    | none => .error .malformedToken

/-- `RawJwtBuilder::Build`: wraps the accumulated object; never fails. -/
def Build (b : RawJwtBuilder) : Except JwtError RawJwt :=
  .ok ⟨b.json⟩

end RawJwtBuilder

/-- One builder call, for quantifying over builder-produced claim sets.
The fallible `Add*` calls leave the builder unchanged when they fail,
as the C++ methods return early before mutating. -/
inductive BuilderOp where
  | setIssuer (s : Str)
  | setSubject (s : Str)
  | addAudience (s : Str)
  | setJwtId (s : Str)
  | setExpiration (t : Int)
  | setNotBefore (t : Int)
  | setIssuedAt (t : Int)
  | addNullClaim (name : Str)
  | addBooleanClaim (name : Str) (b : Bool)
  | addStringClaim (name : Str) (v : Str)
  | addNumberClaim (name : Str) (v : Int)
  | addJsonObjectClaim (name : Str) (txt : Str)
  | addJsonArrayClaim (name : Str) (txt : Str)

/-- Apply one builder call. -/
def applyOp (b : RawJwtBuilder) : BuilderOp → RawJwtBuilder
  | .setIssuer s => b.SetIssuer s
  | .setSubject s => b.SetSubject s
  | .addAudience s => b.AddAudience s
  | .setJwtId s => b.SetJwtId s
  | .setExpiration t => b.SetExpiration t
  | .setNotBefore t => b.SetNotBefore t
  | .setIssuedAt t => b.SetIssuedAt t
  | .addNullClaim n => ((b.AddNullClaim n).toOption).getD b
  | .addBooleanClaim n v => ((b.AddBooleanClaim n v).toOption).getD b
  | .addStringClaim n v => ((b.AddStringClaim n v).toOption).getD b
  | .addNumberClaim n v => ((b.AddNumberClaim n v).toOption).getD b
  | .addJsonObjectClaim n t => ((b.AddJsonObjectClaim n t).toOption).getD b
  | .addJsonArrayClaim n t => ((b.AddJsonArrayClaim n t).toOption).getD b

/-- Run a sequence of builder calls from the fresh builder. -/
def runOps (ops : List BuilderOp) : RawJwtBuilder :=
  ops.foldl applyOp ⟨.nil⟩

/-! ## Compact format helpers (`jwt_format.cc`, modelled from the spec) -/

/-- Modelled from the spec: `CreateHeader(alg)` produces the canonical
header object `{"alg":"<ALG>","typ":"JWT"}`, base64url-encoded (§4.4). -/
def CreateHeader (algorithm : Str) : Str :=
  base64UrlEncode (serV (.structValue
    (.cons (lit "alg") (.stringValue algorithm)
      (.cons (lit "typ") (.stringValue (lit "JWT")) .nil))))

/-- Modelled from the spec: `EncodePayload` base64url-encodes the JSON
payload (§4.7). -/
def EncodePayload (json : Str) : Str := base64UrlEncode json

/-- Modelled from the spec: `DecodePayload` base64url-decodes a payload
segment (§4.7). -/
def DecodePayload (s : Str) : Option Str := base64UrlDecode s

/-- Modelled from the spec: `EncodeSignature` base64url-encodes the tag
(§4.7). -/
def EncodeSignature (sig : Str) : Str := base64UrlEncode sig

/-- Modelled from the spec: `DecodeSignature` base64url-decodes a tag
segment (§4.7). -/
def DecodeSignature (s : Str) : Option Str := base64UrlDecode s

/-- Modelled from the spec: `ValidateHeader(encoded_header, expected_alg)`
(§4.4): decode, parse as a JSON object, require any `typ` to equal
`"JWT"`, require `alg` to equal the expected algorithm, and reject any
`crit` header. -/
def ValidateHeader (encodedHeader : Str) (expectedAlg : Str) :
    Except JwtError Unit :=
  match base64UrlDecode encodedHeader with
  | none => .error .malformedToken
  | some headerJson =>
    match JsonStringToProtoStruct headerJson with
    | none => .error .malformedToken
    | some header =>
      match
        (match header.find? (lit "typ") with
          | none => Except.ok ()
          | some (.stringValue t) =>
            if t = lit "JWT" then Except.ok ()
            else Except.error JwtError.invalidHeader
          | some _ => Except.error JwtError.invalidHeader) with
      | .error e => .error e
      | .ok _ =>
        match header.find? (lit "alg") with
        | some (.stringValue a) =>
          if a = expectedAlg then
            if (header.find? (lit "crit")).isSome then
              .error .invalidHeader
            else .ok ()
          else .error .algorithmMismatch
        | _ => .error .algorithmMismatch

/-! ## Validator (`jwt_validator.cc`, modelled from the spec §4.8) -/

/-- Modelled from the spec: the validator policy object (§3, §4.8).  Only
fixed-now validation is modelled (the real-clock branch reads the system
clock). -/
structure JwtValidator where
  expectedIssuer : Option Str := none
  expectedSubject : Option Str := none
  expectedAudience : Option Str := none
  clockSkew : Int := 0
  fixedNow : Int := 0
  allowMissingExpiration : Bool := false

/-- Modelled from the spec: `JwtValidator::Validate` (§4.8): expiration
and not-before checks with clock skew against `now`, then byte-exact
issuer, subject, and audience policy checks. -/
def JwtValidator.Validate (val : JwtValidator) (jwt : RawJwt) :
    Except JwtError Unit :=
  match
    (match jwt.json.find? kJwtClaimExpiration with
      | some (.numberValue e) =>
        if val.fixedNow < e + val.clockSkew then Except.ok ()
        else Except.error JwtError.tokenExpired
      | some _ => Except.error JwtError.invalidArgument
      | none =>
        if val.allowMissingExpiration then Except.ok ()
        else Except.error JwtError.tokenExpired) with
  | .error e => .error e
  | .ok _ =>
    match
      (match jwt.json.find? kJwtClaimNotBefore with
        | some (.numberValue nbf) =>
          if nbf - val.clockSkew ≤ val.fixedNow then Except.ok ()
          else Except.error JwtError.notYetValid
        | some _ => Except.error JwtError.invalidArgument
        | none => Except.ok ()) with
    | .error e => .error e
    | .ok _ =>
      match
        (match val.expectedIssuer with
          | none => Except.ok ()
          | some iss =>
            match jwt.json.find? kJwtClaimIssuer with
            | some (.stringValue s) =>
              if s = iss then Except.ok ()
              else Except.error JwtError.issuerMismatch
            | _ => Except.error JwtError.issuerMismatch) with
      | .error e => .error e
      | .ok _ =>
        match
          (match val.expectedSubject with
            | none => Except.ok ()
            | some sub =>
              match jwt.json.find? kJwtClaimSubject with
              | some (.stringValue s) =>
                if s = sub then Except.ok ()
                else Except.error JwtError.subjectMismatch
              | _ => Except.error JwtError.subjectMismatch) with
        | .error e => .error e
        | .ok _ =>
          match val.expectedAudience with
          | none => .ok ()
          | some aud =>
            match jwt.GetAudiences with
            | .ok auds =>
              if aud ∈ auds then .ok ()
              else .error .audienceMismatch
            | .error _ => .error .audienceMismatch

/-- `VerifiedJwt`: a claim set that passed verification. -/
structure VerifiedJwt where
  jwt : RawJwt
  deriving DecidableEq

/-! ## `JwtMacImpl` (`jwt_mac_impl.cc`) -/

/-- Split a byte string at its last dot (46):
`compact.find_last_of('.')` plus the two `substr` calls; `none` when
there is no dot. -/
def lastDotSplit : Str → Option (Str × Str)
  | [] => none
  | c :: rest =>
    match lastDotSplit rest with
    | some (a, b) => some (c :: a, b)
    | none => if c = 46 then some ([], rest) else none

/-- `absl::StrSplit(s, '.')`: split on every dot; splitting the empty
string yields one empty piece. -/
def splitOnDot : Str → List Str
  | [] => [[]]
  | c :: rest =>
    if c = 46 then [] :: splitOnDot rest
    else
      match splitOnDot rest with
      | p :: ps => (c :: p) :: ps
      | [] => [[c]]

/-- `JwtMacImpl`: the algorithm name fixed at construction, and the MAC
primitive (`mac_->ComputeMac`, modelled as a function from message bytes
to tag bytes; `mac_->VerifyMac` recomputes and compares). -/
structure JwtMacImpl where
  algorithm : Str
  computeMac : Str → Str

namespace JwtMacImpl

/-- `Mac::VerifyMac`: recompute the tag over the data and compare;
a mismatch is the MAC primitive's rejection (`InvalidMac`, §4.5). -/
def VerifyMacRaw (m : JwtMacImpl) (mac data : Str) : Except JwtError Unit :=
  if mac = m.computeMac data then .ok () else .error .invalidMac

/-- `JwtMacImpl::ComputeMacAndEncode`: serialize the claim set, assemble
`encoded_header || "." || encoded_payload`, MAC it, and append the
base64url tag. -/
def ComputeMacAndEncode (m : JwtMacImpl) (token : RawJwt) :
    Except JwtError Str :=
  match token.ToString with
  | .error e => .error e
  | .ok payload =>
    let encodedHeader := CreateHeader m.algorithm
    let encodedPayload := EncodePayload payload
    let unsignedToken := encodedHeader ++ 46 :: encodedPayload
    let tag := m.computeMac unsignedToken
    let encodedTag := EncodeSignature tag
    .ok (unsignedToken ++ 46 :: encodedTag)

/-- `JwtMacImpl::VerifyMacAndDecode`: split at the last dot, decode the
tag, verify the MAC over the signing input, then split the signing input
into exactly two segments, validate the header, decode and parse the
payload, and apply the validator. -/
def VerifyMacAndDecode (m : JwtMacImpl) (compact : Str)
    (validator : JwtValidator) : Except JwtError VerifiedJwt :=
  match lastDotSplit compact with
  | none => .error .malformedToken
  | some (unsignedToken, tagPart) =>
    match DecodeSignature tagPart with
    | none => .error .malformedToken
    | some macValue =>
      match m.VerifyMacRaw macValue unsignedToken with
      | .error e => .error e
      | .ok _ =>
        match splitOnDot unsignedToken with
        | [encodedHeader, encodedPayload] =>
          match ValidateHeader encodedHeader m.algorithm with
          | .error e => .error e
          | .ok _ =>
            match DecodePayload encodedPayload with
            | none => .error .malformedToken
            | some jsonPayload =>
              match RawJwt.FromString jsonPayload with
              | .error e => .error e
              | .ok rawJwt =>
                match validator.Validate rawJwt with
                | .error e => .error e
                | .ok _ => .ok ⟨rawJwt⟩
        | _ => .error .malformedToken

end JwtMacImpl

/-! ## Lemmas: decimal digits -/

/-- Value of a digit string, most significant first. -/
def digitsVal (ds : Str) : Nat := ds.foldl (fun a c => a * 10 + (c - 48)) 0

/-- The head byte of the input is not a digit (trivially true for an
empty input). -/
def noDigitHead : Str → Bool
  | [] => true
  | c :: _ => !isDigitB c

theorem natToDigitsAux_digits :
    ∀ fuel n, n < fuel →
      natToDigitsAux fuel n ≠ [] ∧
        ∀ c ∈ natToDigitsAux fuel n, 48 ≤ c ∧ c ≤ 57 := by
  intro fuel
  induction fuel with
  | zero => intro n hn; exact absurd hn (Nat.not_lt_zero n)
  | succ fuel ih =>
    intro n _
    by_cases h10 : n < 10
    · simp only [natToDigitsAux, if_pos h10]
      refine ⟨by simp, ?_⟩
      intro c hc
      simp only [List.mem_singleton] at hc
      omega
    · have hdiv : n / 10 < fuel := by
        have : n / 10 < n := Nat.div_lt_self (by omega) (by omega)
        omega
      obtain ⟨hne, hall⟩ := ih (n / 10) hdiv
      simp only [natToDigitsAux, if_neg h10]
      refine ⟨by simp, ?_⟩
      intro c hc
      rcases List.mem_append.mp hc with h | h
      · exact hall c h
      · simp only [List.mem_singleton] at h
        omega

theorem digitsVal_append_single (ds : Str) (d : Nat) :
    digitsVal (ds ++ [d]) = digitsVal ds * 10 + (d - 48) := by
  simp only [digitsVal, List.foldl_append, List.foldl_cons, List.foldl_nil]

theorem natToDigitsAux_val :
    ∀ fuel n, n < fuel → digitsVal (natToDigitsAux fuel n) = n := by
  intro fuel
  induction fuel with
  | zero => intro n hn; exact absurd hn (Nat.not_lt_zero n)
  | succ fuel ih =>
    intro n _
    by_cases h10 : n < 10
    · simp only [natToDigitsAux, if_pos h10, digitsVal, List.foldl_cons,
        List.foldl_nil]
      omega
    · have hdiv : n / 10 < fuel := by
        have : n / 10 < n := Nat.div_lt_self (by omega) (by omega)
        omega
      simp only [natToDigitsAux, if_neg h10]
      rw [digitsVal_append_single, ih (n / 10) hdiv]
      omega

theorem natToDigits_ne_nil (n : Nat) : natToDigits n ≠ [] :=
  (natToDigitsAux_digits (n + 1) n (by omega)).1

theorem natToDigits_digits (n : Nat) :
    ∀ c ∈ natToDigits n, 48 ≤ c ∧ c ≤ 57 :=
  (natToDigitsAux_digits (n + 1) n (by omega)).2

theorem natToDigits_val (n : Nat) : digitsVal (natToDigits n) = n :=
  natToDigitsAux_val (n + 1) n (by omega)

theorem parseDigitsAux_spec (ds : Str) :
    ∀ rest acc, (∀ c ∈ ds, isDigitB c = true) → noDigitHead rest = true →
      parseDigitsAux (ds ++ rest) acc =
        (ds.foldl (fun a c => a * 10 + (c - 48)) acc, rest) := by
  induction ds with
  | nil =>
    intro rest acc _ hrest
    cases rest with
    | nil => simp [parseDigitsAux]
    | cons c r =>
      simp only [noDigitHead, Bool.not_eq_true'] at hrest
      simp [parseDigitsAux, hrest]
  | cons d ds ih =>
    intro rest acc hds hrest
    have hd : isDigitB d = true := hds d (by simp)
    have step : parseDigitsAux (d :: ds ++ rest) acc =
        parseDigitsAux (ds ++ rest) (acc * 10 + (d - 48)) := by
      simp [parseDigitsAux, hd]
    rw [step, ih rest (acc * 10 + (d - 48)) (fun c hc => hds c (by simp [hc]))
      hrest]
    simp

theorem parseDigits_natToDigits (n : Nat) (rest : Str)
    (hrest : noDigitHead rest = true) :
    parseDigitsAux (natToDigits n ++ rest) 0 = (n, rest) := by
  rw [parseDigitsAux_spec (natToDigits n) rest 0
      (fun c hc => by
        have h := natToDigits_digits n c hc
        simp only [isDigitB, Bool.and_eq_true, decide_eq_true_eq]
        omega)
      hrest]
  rw [show (natToDigits n).foldl (fun a c => a * 10 + (c - 48)) 0 =
    digitsVal (natToDigits n) from rfl, natToDigits_val]

/-! ## Lemmas: string bodies and serializer heads -/

theorem parseStringBody_escape (s : Str) :
    ∀ rest, parseStringBody (escapeStr s ++ 34 :: rest) = some (s, rest) := by
  induction s with
  | nil =>
    intro rest
    rw [show escapeStr [] = [] from rfl, List.nil_append,
      parseStringBody.eq_def]
    simp
  | cons c s ih =>
    intro rest
    by_cases hc : c = 34 ∨ c = 92
    · have h1 : escapeStr (c :: s) = 92 :: c :: escapeStr s := by
        simp [escapeStr, hc]
      rw [h1, List.cons_append, List.cons_append, parseStringBody.eq_def]
      simp [hc, ih rest]
    · have h1 : escapeStr (c :: s) = c :: escapeStr s := by
        simp [escapeStr, hc]
      have h34 : ¬ c = 34 := fun h => hc (Or.inl h)
      have h92 : ¬ c = 92 := fun h => hc (Or.inr h)
      rw [h1, List.cons_append, parseStringBody.eq_def]
      simp [h34, h92, ih rest]

theorem expectB_self (es : Str) : ∀ rest, expectB es (es ++ rest) = some rest := by
  induction es with
  | nil => intro rest; rfl
  | cons e es ih => intro rest; simp [expectB, ih rest]

/-- Every serialized value is non-empty and starts with a byte that is
not a comma, colon, closing bracket, or closing brace. -/
theorem serV_head (v : JsonValue) :
    ∃ c t, serV v = c :: t ∧ c ≠ 44 ∧ c ≠ 58 ∧ c ≠ 93 ∧ c ≠ 125 := by
  cases v with
  | nullValue =>
    exact ⟨110, [117, 108, 108], by simp [serV], by omega, by omega, by omega,
      by omega⟩
  | boolValue b =>
    cases b with
    | true =>
      exact ⟨116, [114, 117, 101], by simp [serV], by omega, by omega,
        by omega, by omega⟩
    | false =>
      exact ⟨102, [97, 108, 115, 101], by simp [serV], by omega, by omega,
        by omega, by omega⟩
  | numberValue n =>
    by_cases hn : n < 0
    · refine ⟨45, natToDigits n.natAbs, ?_, by omega, by omega, by omega,
        by omega⟩
      simp [serV, serInt, if_pos hn]
    · obtain ⟨d, t, hd⟩ : ∃ d t, natToDigits n.toNat = d :: t := by
        cases h : natToDigits n.toNat with
        | nil => exact absurd h (natToDigits_ne_nil _)
        | cons d t => exact ⟨d, t, rfl⟩
      have hdig := natToDigits_digits n.toNat d (by rw [hd]; simp)
      refine ⟨d, t, ?_, by omega, by omega, by omega, by omega⟩
      simp [serV, serInt, if_neg hn, hd]
  | stringValue s =>
    exact ⟨34, escapeStr s ++ [34], by simp [serV], by omega, by omega,
      by omega, by omega⟩
  | listValue vs =>
    cases vs with
    | nil =>
      exact ⟨91, [93], by simp [serV], by omega, by omega, by omega, by omega⟩
    | cons v vs =>
      exact ⟨91, serV v ++ serElems vs ++ [93], by simp [serV], by omega,
        by omega, by omega, by omega⟩
  | structValue fs =>
    cases fs with
    | nil =>
      exact ⟨123, [125], by simp [serV], by omega, by omega, by omega,
        by omega⟩
    | cons k v fs =>
      exact ⟨123, serMember k v ++ serMembers fs ++ [125], by simp [serV],
        by omega, by omega, by omega, by omega⟩

/-- Sizes are positive. -/
theorem jsizeV_pos (v : JsonValue) : 1 ≤ jsizeV v := by
  cases v <;> simp only [jsizeV] <;> omega

/-! ## Lemmas: JSON parse/serialize roundtrip -/

theorem noDigitHead_serElems (vs : JsonList) (rest : Str) :
    noDigitHead (serElems vs ++ 93 :: rest) = true := by
  cases vs <;> simp [serElems, noDigitHead, isDigitB]

theorem noDigitHead_serMembers (fs : JsonFields) (rest : Str) :
    noDigitHead (serMembers fs ++ 125 :: rest) = true := by
  cases fs <;> simp [serMembers, serMember, noDigitHead, isDigitB]

/-- Dispatch of the value parser on a digit head. -/
theorem parseValue_digit (fuel : Nat) (d : Nat) (h48 : 48 ≤ d) (h57 : d ≤ 57)
    (t : Str) :
    parseValue (fuel + 1) (d :: t) =
      some (.numberValue ((parseDigitsAux (d :: t) 0).1 : Int),
        (parseDigitsAux (d :: t) 0).2) := by
  have hdig : isDigitB d = true := by simp [isDigitB]; omega
  simp only [parseValue]
  rw [if_neg (by omega : ¬ d = 110), if_neg (by omega : ¬ d = 116),
    if_neg (by omega : ¬ d = 102), if_neg (by omega : ¬ d = 34),
    if_neg (by omega : ¬ d = 45), if_neg (by omega : ¬ d = 91),
    if_neg (by omega : ¬ d = 123), if_pos hdig]

/-- Parsing inverts serialization: one fuel induction establishing the
statement for values, element lists, and member lists together. -/
theorem parse_ser_roundtrip :
    ∀ fuel : Nat,
      (∀ v rest, wfV v = true → noDigitHead rest = true →
        jsizeV v ≤ fuel →
        parseValue fuel (serV v ++ rest) = some (v, rest)) ∧
      (∀ v vs rest, wfV v = true → wfL vs = true →
        jsizeL (.cons v vs) ≤ fuel →
        parseElems fuel (serV v ++ serElems vs ++ 93 :: rest) =
          some (.cons v vs, rest)) ∧
      (∀ k v fs rest, wfV v = true → wfF fs = true →
        JsonFields.nodupKeys (.cons k v fs) = true →
        jsizeF (.cons k v fs) ≤ fuel →
        parseMembers fuel (serMember k v ++ serMembers fs ++ 125 :: rest) =
          some (.cons k v fs, rest)) := by
  intro fuel
  induction fuel with
  | zero =>
    refine ⟨?_, ?_, ?_⟩
    · intro v _ _ _ hsz
      have := jsizeV_pos v
      omega
    · intro v vs _ _ _ hsz
      have h1 := jsizeV_pos v
      simp only [jsizeL] at hsz
      omega
    · intro k v fs _ _ _ _ hsz
      have h1 := jsizeV_pos v
      simp only [jsizeF] at hsz
      omega
  | succ fuel ih =>
    obtain ⟨ihv, ihe, ihm⟩ := ih
    refine ⟨?_, ?_, ?_⟩
    · -- values
      intro v rest hwf hnd hsz
      cases v with
      | nullValue =>
        simp [serV, parseValue, expectB]
      | boolValue b =>
        cases b with
        | true => simp [serV, parseValue, expectB]
        | false => simp [serV, parseValue, expectB]
      | stringValue s =>
        have hs : serV (.stringValue s) ++ rest =
            34 :: (escapeStr s ++ 34 :: rest) := by
          simp [serV]
        rw [hs]
        simp [parseValue, parseStringBody_escape]
      | numberValue n =>
        rcases lt_or_ge n 0 with hn | hn
        · have hs : serV (.numberValue n) = 45 :: natToDigits n.natAbs := by
            simp [serV, serInt, if_pos hn]
          obtain ⟨d, t, hd⟩ : ∃ d t, natToDigits n.natAbs = d :: t := by
            cases h : natToDigits n.natAbs with
            | nil => exact absurd h (natToDigits_ne_nil _)
            | cons d t => exact ⟨d, t, rfl⟩
          have hdig := natToDigits_digits n.natAbs d (by rw [hd]; simp)
          have hdigb : isDigitB d = true := by simp [isDigitB]; omega
          rw [hs, List.cons_append, hd, List.cons_append]
          simp [parseValue, hdigb]
          rw [show d :: (t ++ rest) = natToDigits n.natAbs ++ rest from by
            rw [hd, List.cons_append], parseDigits_natToDigits _ _ hnd]
          have hval : -((n.natAbs : Nat) : Int) = n := by omega
          rw [hval]
          exact ⟨rfl, rfl⟩
        · have hs : serV (.numberValue n) = natToDigits n.toNat := by
            simp [serV, serInt, if_neg (by omega : ¬ n < 0)]
          obtain ⟨d, t, hd⟩ : ∃ d t, natToDigits n.toNat = d :: t := by
            cases h : natToDigits n.toNat with
            | nil => exact absurd h (natToDigits_ne_nil _)
            | cons d t => exact ⟨d, t, rfl⟩
          have hdig := natToDigits_digits n.toNat d (by rw [hd]; simp)
          rw [hs, hd, List.cons_append,
            parseValue_digit fuel d hdig.1 hdig.2]
          rw [show d :: (t ++ rest) = natToDigits n.toNat ++ rest from by
            rw [hd, List.cons_append], parseDigits_natToDigits _ _ hnd]
          have hval : ((n.toNat : Nat) : Int) = n := by omega
          rw [hval]
      | listValue vs =>
        cases vs with
        | nil =>
          simp [serV, parseValue]
        | cons v vs =>
          have hwf' : wfV v = true ∧ wfL vs = true := by
            simp only [wfV, wfL, Bool.and_eq_true] at hwf
            exact hwf
          have hsz' : jsizeL (.cons v vs) ≤ fuel := by
            simp only [jsizeV] at hsz
            omega
          have key := ihe v vs rest hwf'.1 hwf'.2 hsz'
          obtain ⟨c0, t0, hc0, _, _, hc93, _⟩ := serV_head v
          have hs : serV (.listValue (.cons v vs)) ++ rest =
              91 :: (c0 :: (t0 ++ (serElems vs ++ 93 :: rest))) := by
            simp [serV, hc0, List.append_assoc]
          rw [hs]
          rw [hc0] at key
          simp only [List.cons_append, List.append_assoc] at key
          simp [parseValue, hc93, key]
      | structValue fs =>
        cases fs with
        | nil =>
          simp [serV, parseValue]
        | cons k v fs =>
          have hnod : (!JsonFields.containsKey fs k &&
                JsonFields.nodupKeys fs) = true ∧
              (wfV v && wfF fs) = true := by
            simp only [wfV, wfF, JsonFields.nodupKeys, Bool.and_eq_true]
              at hwf
            exact ⟨by simp [hwf.1.1, hwf.1.2], by simp [hwf.2.1, hwf.2.2]⟩
          have hwfv : wfV v = true ∧ wfF fs = true := by
            have h := hnod.2
            simp only [Bool.and_eq_true] at h
            exact h
          have hnod' : JsonFields.nodupKeys (.cons k v fs) = true := by
            simp only [JsonFields.nodupKeys]
            exact hnod.1
          have hsz' : jsizeF (.cons k v fs) ≤ fuel := by
            simp only [jsizeV] at hsz
            omega
          have key := ihm k v fs rest hwfv.1 hwfv.2 hnod' hsz'
          have hs : serV (.structValue (.cons k v fs)) ++ rest =
              123 :: (34 :: (escapeStr k ++ ([34, 58] ++ (serV v ++
                (serMembers fs ++ 125 :: rest))))) := by
            simp [serV, serMember, List.append_assoc]
          rw [hs]
          simp only [serMember, List.cons_append, List.append_assoc,
            List.nil_append] at key
          simp [parseValue, key]
    · -- element lists
      intro v vs rest hv hvs hsz
      have hszv : jsizeV v ≤ fuel := by
        simp only [jsizeL] at hsz
        omega
      have hv1 := ihv v (serElems vs ++ 93 :: rest) hv
        (noDigitHead_serElems vs rest) hszv
      simp only [parseElems, List.append_assoc]
      rw [hv1]
      cases vs with
      | nil =>
        simp [serElems]
      | cons v2 vs2 =>
        have hv' : wfV v2 = true ∧ wfL vs2 = true := by
          simp only [wfL, Bool.and_eq_true] at hvs
          exact hvs
        have hsz' : jsizeL (.cons v2 vs2) ≤ fuel := by
          simp only [jsizeL] at hsz ⊢
          have := jsizeV_pos v
          omega
        have key := ihe v2 vs2 rest hv'.1 hv'.2 hsz'
        simp only [List.append_assoc] at key
        simp [serElems, List.append_assoc, key]
    · -- member lists
      intro k v fs rest hv hfs hnd hsz
      have hszv : jsizeV v ≤ fuel := by
        simp only [jsizeF] at hsz
        omega
      have hv1 := ihv v (serMembers fs ++ 125 :: rest) hv
        (noDigitHead_serMembers fs rest) hszv
      have hnd2 : JsonFields.containsKey fs k = false ∧
          JsonFields.nodupKeys fs = true := by
        simp only [JsonFields.nodupKeys, Bool.and_eq_true,
          Bool.not_eq_true'] at hnd
        exact hnd
      rw [show serMember k v ++ serMembers fs ++ 125 :: rest =
        34 :: (escapeStr k ++ 34 :: (58 ::
          (serV v ++ (serMembers fs ++ 125 :: rest)))) from by
          simp [serMember, List.append_assoc]]
      cases fs with
      | nil =>
        simp only [serMembers, List.nil_append] at hv1 ⊢
        simp [parseMembers, parseStringBody_escape, hv1]
      | cons k2 v2 fs2 =>
        have hv' : wfV v2 = true ∧ wfF fs2 = true := by
          simp only [wfF, Bool.and_eq_true] at hfs
          exact hfs
        have hsz' : jsizeF (.cons k2 v2 fs2) ≤ fuel := by
          simp only [jsizeF] at hsz ⊢
          have := jsizeV_pos v
          omega
        have key := ihm k2 v2 fs2 rest hv'.1 hv'.2 hnd2.2 hsz'
        simp only [List.append_assoc] at key
        simp only [serMembers, List.cons_append, List.append_assoc] at hv1
        simp [parseMembers, parseStringBody_escape, hv1, serMembers,
          List.append_assoc, key, hnd2.1]

/-! ## Lemmas: base64url codec -/

theorem b64Index_b64Char : ∀ n, n < 64 → b64Index (b64Char n) = some n := by
  decide

theorem b64Alphabet_length : b64Alphabet.length = 64 := by decide

theorem b64Char_ne (n : Nat) : b64Char n ≠ 46 ∧ b64Char n ≠ 61 := by
  by_cases h : n < 64
  · exact (by decide :
      ∀ m, m < 64 → b64Char m ≠ 46 ∧ b64Char m ≠ 61) n h
  · have hd : b64Char n = 65 := by
      unfold b64Char
      apply List.getD_eq_default
      rw [b64Alphabet_length]
      omega
    rw [hd]
    exact ⟨by omega, by omega⟩

theorem mem_base64UrlEncode :
    ∀ bs : Str, ∀ c ∈ base64UrlEncode bs, ∃ m, c = b64Char m := by
  intro bs
  induction bs using base64UrlEncode.induct with
  | case1 =>
    intro c hc
    simp [base64UrlEncode] at hc
  | case2 b1 =>
    intro c hc
    simp only [base64UrlEncode, List.mem_cons, List.mem_singleton,
      List.not_mem_nil, or_false] at hc
    rcases hc with h | h
    · exact ⟨_, h⟩
    · exact ⟨_, h⟩
  | case3 b1 b2 =>
    intro c hc
    simp only [base64UrlEncode, List.mem_cons, List.mem_singleton,
      List.not_mem_nil, or_false] at hc
    rcases hc with h | h | h
    · exact ⟨_, h⟩
    · exact ⟨_, h⟩
    · exact ⟨_, h⟩
  | case4 b1 b2 b3 rest ih =>
    intro c hc
    simp only [base64UrlEncode, List.mem_cons] at hc
    rcases hc with h | h | h | h | h
    · exact ⟨_, h⟩
    · exact ⟨_, h⟩
    · exact ⟨_, h⟩
    · exact ⟨_, h⟩
    · exact ih c h

theorem base64UrlEncode_ne_dot (bs : Str) :
    ∀ c ∈ base64UrlEncode bs, c ≠ 46 := by
  intro c hc
  obtain ⟨m, hm⟩ := mem_base64UrlEncode bs c hc
  rw [hm]
  exact (b64Char_ne m).1

theorem base64UrlEncode_ne_61 (bs : Str) :
    ∀ c ∈ base64UrlEncode bs, c ≠ 61 := by
  intro c hc
  obtain ⟨m, hm⟩ := mem_base64UrlEncode bs c hc
  rw [hm]
  exact (b64Char_ne m).2

theorem dropWhile_of_no_61 :
    ∀ l : Str, (∀ c ∈ l, c ≠ 61) → l.dropWhile (fun c => c = 61) = l := by
  intro l hl
  cases l with
  | nil => rfl
  | cons c t =>
    have : c ≠ 61 := hl c (by simp)
    simp [List.dropWhile_cons, this]

theorem stripPadding_of_no_61 (s : Str) (h : ∀ c ∈ s, c ≠ 61) :
    stripPadding s = s := by
  unfold stripPadding
  rw [dropWhile_of_no_61 s.reverse (fun c hc => h c (List.mem_reverse.mp hc)),
    List.reverse_reverse]

theorem decodeCore_encode :
    ∀ bs : Str, ByteOk bs →
      base64UrlDecodeCore (base64UrlEncode bs) = some bs := by
  intro bs
  induction bs using base64UrlEncode.induct with
  | case1 =>
    intro _
    simp [base64UrlEncode, base64UrlDecodeCore]
  | case2 b1 =>
    intro h
    have hb1 : b1 < 256 := h b1 (by simp)
    simp [base64UrlEncode, base64UrlDecodeCore,
      b64Index_b64Char (b1 / 4) (by omega),
      b64Index_b64Char (b1 % 4 * 16) (by omega)]
    omega
  | case3 b1 b2 =>
    intro h
    have hb1 : b1 < 256 := h b1 (by simp)
    have hb2 : b2 < 256 := h b2 (by simp)
    simp [base64UrlEncode, base64UrlDecodeCore,
      b64Index_b64Char (b1 / 4) (by omega),
      b64Index_b64Char (b1 % 4 * 16 + b2 / 16) (by omega),
      b64Index_b64Char (b2 % 16 * 4) (by omega)]
    constructor
    · omega
    · omega
  | case4 b1 b2 b3 rest ih =>
    intro h
    have hb1 : b1 < 256 := h b1 (by simp)
    have hb2 : b2 < 256 := h b2 (by simp)
    have hb3 : b3 < 256 := h b3 (by simp)
    have hrest : ByteOk rest := fun b hb => h b (by simp [hb])
    simp [base64UrlEncode, base64UrlDecodeCore,
      b64Index_b64Char (b1 / 4) (by omega),
      b64Index_b64Char (b1 % 4 * 16 + b2 / 16) (by omega),
      b64Index_b64Char (b2 % 16 * 4 + b3 / 64) (by omega),
      b64Index_b64Char (b3 % 64) (by omega), ih hrest]
    refine ⟨by omega, by omega, by omega⟩

theorem base64UrlDecode_encode (bs : Str) (h : ByteOk bs) :
    base64UrlDecode (base64UrlEncode bs) = some bs := by
  unfold base64UrlDecode
  rw [stripPadding_of_no_61 _ (base64UrlEncode_ne_61 bs)]
  exact decodeCore_encode bs h

/-! ## Lemmas: field maps -/

theorem JsonFields.find?_set :
    ∀ (fs : JsonFields) (k : Str) (v : JsonValue) (k0 : Str),
      JsonFields.find? (fs.set k v) k0 =
        if k0 = k then some v else JsonFields.find? fs k0
  | .nil, k, v, k0 => by
    by_cases h : k0 = k
    · subst h
      simp [JsonFields.set, JsonFields.find?]
    · have h' : ¬ k = k0 := fun hh => h hh.symm
      simp [JsonFields.set, JsonFields.find?, h, h']
  | .cons k1 v1 fs, k, v, k0 => by
    have ih := JsonFields.find?_set fs k v k0
    by_cases h1 : k1 = k
    · subst h1
      by_cases h0 : k0 = k1
      · subst h0
        simp [JsonFields.set, JsonFields.find?]
      · have h0' : ¬ k1 = k0 := fun hh => h0 hh.symm
        simp [JsonFields.set, JsonFields.find?, h0, h0']
    · by_cases h0 : k1 = k0
      · have hk0k : ¬ k0 = k := fun hh => h1 (h0 ▸ hh)
        simp [JsonFields.set, JsonFields.find?, h1, h0, hk0k]
      · simp [JsonFields.set, JsonFields.find?, h1, h0, ih]

/-- A `JsonList` of string values. -/
def strList : List Str → JsonList
  | [] => .nil
  | s :: r => .cons (.stringValue s) (strList r)

theorem audiencesOf_strList (ss : List Str) :
    RawJwt.audiencesOf (strList ss) = .ok ss := by
  induction ss with
  | nil => rfl
  | cons s r ih => simp [strList, RawJwt.audiencesOf, ih]

/-! ## Lemmas: serializer output bytes and fuel bounds -/

theorem ByteOk.append {A B : Str} (ha : ByteOk A) (hb : ByteOk B) :
    ByteOk (A ++ B) := fun c hc =>
  (List.mem_append.mp hc).elim (ha c) (hb c)

theorem ByteOk.cons {c : Nat} {A : Str} (hc : c < 256) (ha : ByteOk A) :
    ByteOk (c :: A) := fun b hb => by
  rcases List.mem_cons.mp hb with h | h
  · omega
  · exact ha b h

theorem strOk_iff (s : Str) : strOk s = true ↔ ByteOk s := by
  simp [strOk, ByteOk, List.all_eq_true, decide_eq_true_eq]

theorem byteOk_natToDigits (n : Nat) : ByteOk (natToDigits n) :=
  fun c hc => by
    have h := natToDigits_digits n c hc
    omega

theorem byteOk_serInt (n : Int) : ByteOk (serInt n) := by
  unfold serInt
  by_cases h : n < 0
  · rw [if_pos h]
    exact ByteOk.cons (by omega) (byteOk_natToDigits _)
  · rw [if_neg h]
    exact byteOk_natToDigits _

theorem byteOk_escape : ∀ s : Str, ByteOk s → ByteOk (escapeStr s) := by
  intro s
  induction s with
  | nil => intro _; exact fun b hb => absurd hb (List.not_mem_nil b)
  | cons c t ih =>
    intro h
    have hc : c < 256 := h c (by simp)
    have ht := ih (fun b hb => h b (by simp [hb]))
    by_cases hesc : c = 34 ∨ c = 92
    · rw [show escapeStr (c :: t) = 92 :: c :: escapeStr t from by
        simp [escapeStr, hesc]]
      exact ByteOk.cons (by omega) (ByteOk.cons hc ht)
    · rw [show escapeStr (c :: t) = c :: escapeStr t from by
        simp [escapeStr, hesc]]
      exact ByteOk.cons hc ht

/-- A serialized well-byted value is a genuine byte string. -/
theorem ser_byteOk : ∀ n : Nat,
    (∀ v, jsizeV v ≤ n → bytesOkV v = true → ByteOk (serV v)) ∧
    (∀ vs, jsizeL vs ≤ n → bytesOkL vs = true → ByteOk (serElems vs)) ∧
    (∀ fs, jsizeF fs ≤ n → bytesOkF fs = true → ByteOk (serMembers fs)) := by
  intro n
  induction n with
  | zero =>
    refine ⟨?_, ?_, ?_⟩
    · intro v hsz _
      have := jsizeV_pos v
      omega
    · intro vs hsz _
      cases vs with
      | nil => intro b hb; simp [serElems] at hb
      | cons v vs =>
        have := jsizeV_pos v
        simp only [jsizeL] at hsz
        omega
    · intro fs hsz _
      cases fs with
      | nil => intro b hb; simp [serMembers] at hb
      | cons k v fs =>
        have := jsizeV_pos v
        simp only [jsizeF] at hsz
        omega
  | succ n ih =>
    obtain ⟨ihv, ihe, ihf⟩ := ih
    refine ⟨?_, ?_, ?_⟩
    · intro v hsz hbytes
      cases v with
      | nullValue => intro b hb; simp [serV] at hb; omega
      | boolValue bv =>
        cases bv <;> (intro b hb; simp [serV] at hb; omega)
      | numberValue m =>
        rw [show serV (.numberValue m) = serInt m from by simp [serV]]
        exact byteOk_serInt m
      | stringValue s =>
        rw [show serV (.stringValue s) = 34 :: escapeStr s ++ [34] from by
          simp [serV]]
        have hs : ByteOk s := (strOk_iff s).mp (by
          simpa [bytesOkV] using hbytes)
        exact ByteOk.cons (by omega)
          (ByteOk.append (byteOk_escape s hs) (by intro b hb; simp at hb; omega))
      | listValue vs =>
        cases vs with
        | nil => intro b hb; simp [serV] at hb; omega
        | cons v vs =>
          rw [show serV (.listValue (.cons v vs)) =
            91 :: (serV v ++ serElems vs ++ [93]) from by simp [serV]]
          simp only [jsizeV, jsizeL] at hsz
          simp only [bytesOkV, bytesOkL, Bool.and_eq_true] at hbytes
          have h1 := ihv v (by omega) hbytes.1
          have h2 := ihe vs (by omega) hbytes.2
          exact ByteOk.cons (by omega)
            (ByteOk.append (ByteOk.append h1 h2)
              (by intro b hb; simp at hb; omega))
      | structValue fs =>
        cases fs with
        | nil => intro b hb; simp [serV] at hb; omega
        | cons k v fs =>
          rw [show serV (.structValue (.cons k v fs)) =
            123 :: (serMember k v ++ serMembers fs ++ [125]) from by
              simp [serV]]
          simp only [jsizeV, jsizeF] at hsz
          simp only [bytesOkV, bytesOkF, Bool.and_eq_true] at hbytes
          have hk : ByteOk k := (strOk_iff k).mp hbytes.1.1
          have h1 := ihv v (by omega) hbytes.1.2
          have h2 := ihf fs (by omega) hbytes.2
          have hm : ByteOk (serMember k v) := by
            rw [show serMember k v = 34 :: escapeStr k ++ [34, 58] ++ serV v
              from by simp [serMember]]
            exact ByteOk.cons (by omega)
              (ByteOk.append
                (ByteOk.append (byteOk_escape k hk)
                  (by intro b hb; simp at hb; omega)) h1)
          exact ByteOk.cons (by omega)
            (ByteOk.append (ByteOk.append hm h2)
              (by intro b hb; simp at hb; omega))
    · intro vs hsz hbytes
      cases vs with
      | nil => intro b hb; simp [serElems] at hb
      | cons v vs =>
        rw [show serElems (.cons v vs) = 44 :: serV v ++ serElems vs from by
          simp [serElems]]
        simp only [jsizeL] at hsz
        simp only [bytesOkL, Bool.and_eq_true] at hbytes
        have h1 := ihv v (by omega) hbytes.1
        have h2 := ihe vs (by omega) hbytes.2
        exact ByteOk.cons (by omega) (ByteOk.append h1 h2)
    · intro fs hsz hbytes
      cases fs with
      | nil => intro b hb; simp [serMembers] at hb
      | cons k v fs =>
        rw [show serMembers (.cons k v fs) =
          44 :: serMember k v ++ serMembers fs from by simp [serMembers]]
        simp only [jsizeF] at hsz
        simp only [bytesOkF, Bool.and_eq_true] at hbytes
        have hk : ByteOk k := (strOk_iff k).mp hbytes.1.1
        have h1 := ihv v (by omega) hbytes.1.2
        have h2 := ihf fs (by omega) hbytes.2
        have hm : ByteOk (serMember k v) := by
          rw [show serMember k v = 34 :: escapeStr k ++ [34, 58] ++ serV v
            from by simp [serMember]]
          exact ByteOk.cons (by omega)
            (ByteOk.append
              (ByteOk.append (byteOk_escape k hk)
                (by intro b hb; simp at hb; omega)) h1)
        exact ByteOk.cons (by omega) (ByteOk.append hm h2)

/-- The parser fuel supplied by the top-level entry points suffices: the
structural size of a value is bounded by its serialized length. -/
theorem jsize_le_ser : ∀ n : Nat,
    (∀ v, jsizeV v ≤ n → jsizeV v ≤ (serV v).length) ∧
    (∀ vs, jsizeL vs ≤ n → jsizeL vs ≤ (serElems vs).length) ∧
    (∀ fs, jsizeF fs ≤ n → jsizeF fs ≤ (serMembers fs).length) := by
  intro n
  induction n with
  | zero =>
    refine ⟨?_, ?_, ?_⟩
    · intro v hsz
      have := jsizeV_pos v
      omega
    · intro vs hsz
      cases vs with
      | nil => simp [jsizeL]
      | cons v vs =>
        have := jsizeV_pos v
        simp only [jsizeL] at hsz
        omega
    · intro fs hsz
      cases fs with
      | nil => simp [jsizeF]
      | cons k v fs =>
        have := jsizeV_pos v
        simp only [jsizeF] at hsz
        omega
  | succ n ih =>
    obtain ⟨ihv, ihe, ihf⟩ := ih
    have hserInt : ∀ m : Int, 1 ≤ (serInt m).length := by
      intro m
      unfold serInt
      by_cases hm : m < 0
      · simp [hm]
      · rw [if_neg hm]
        cases hh : natToDigits m.toNat with
        | nil => exact absurd hh (natToDigits_ne_nil _)
        | cons a t => simp [hh]
    have hmember : ∀ (k : Str) (v : JsonValue),
        (serMember k v).length = (escapeStr k).length + 3 + (serV v).length := by
      intro k v
      rw [show serMember k v = 34 :: escapeStr k ++ [34, 58] ++ serV v from by
        simp [serMember]]
      simp
      omega
    refine ⟨?_, ?_, ?_⟩
    · intro v hsz
      cases v with
      | nullValue => simp [jsizeV, serV]
      | boolValue bv => cases bv <;> simp [jsizeV, serV]
      | numberValue m =>
        rw [show serV (.numberValue m) = serInt m from by simp [serV]]
        simpa [jsizeV] using hserInt m
      | stringValue s =>
        rw [show serV (.stringValue s) = 34 :: escapeStr s ++ [34] from by
          simp [serV]]
        simp [jsizeV]
      | listValue vs =>
        cases vs with
        | nil => simp [jsizeV, jsizeL, serV]
        | cons v vs =>
          rw [show serV (.listValue (.cons v vs)) =
            91 :: (serV v ++ serElems vs ++ [93]) from by simp [serV]]
          simp only [jsizeV, jsizeL] at hsz ⊢
          have h1 := ihv v (by omega)
          have h2 := ihe vs (by omega)
          simp only [List.length_cons, List.length_append,
            List.length_singleton]
          omega
      | structValue fs =>
        cases fs with
        | nil => simp [jsizeV, jsizeF, serV]
        | cons k v fs =>
          rw [show serV (.structValue (.cons k v fs)) =
            123 :: (serMember k v ++ serMembers fs ++ [125]) from by
              simp [serV]]
          simp only [jsizeV, jsizeF] at hsz ⊢
          have h1 := ihv v (by omega)
          have h2 := ihf fs (by omega)
          have h3 := hmember k v
          simp only [List.length_cons, List.length_append,
            List.length_singleton]
          omega
    · intro vs hsz
      cases vs with
      | nil => simp [jsizeL]
      | cons v vs =>
        rw [show serElems (.cons v vs) = 44 :: serV v ++ serElems vs from by
          simp [serElems]]
        simp only [jsizeL] at hsz ⊢
        have h1 := ihv v (by omega)
        have h2 := ihe vs (by omega)
        simp only [List.length_cons, List.length_append]
        omega
    · intro fs hsz
      cases fs with
      | nil => simp [jsizeF]
      | cons k v fs =>
        rw [show serMembers (.cons k v fs) =
          44 :: serMember k v ++ serMembers fs from by simp [serMembers]]
        simp only [jsizeF] at hsz ⊢
        have h1 := ihv v (by omega)
        have h2 := ihf fs (by omega)
        have h3 := hmember k v
        simp only [List.length_cons, List.length_append]
        omega

/-! ## Lemmas: parser output is well-formed -/

/-- Values produced by the parser satisfy the map invariant: the parser
rejects duplicate keys at every object level. -/
theorem parse_wf : ∀ fuel : Nat,
    (∀ s v r, parseValue fuel s = some (v, r) → wfV v = true) ∧
    (∀ s vs r, parseElems fuel s = some (vs, r) → wfL vs = true) ∧
    (∀ s fs r, parseMembers fuel s = some (fs, r) →
      JsonFields.nodupKeys fs = true ∧ wfF fs = true) := by
  intro fuel
  induction fuel with
  | zero =>
    refine ⟨?_, ?_, ?_⟩ <;> (intro s v r h; simp [parseValue, parseElems,
      parseMembers] at h)
  | succ fuel ih =>
    obtain ⟨ihv, ihe, ihm⟩ := ih
    refine ⟨?_, ?_, ?_⟩
    · intro s v r h
      cases s with
      | nil => simp [parseValue] at h
      | cons c rest =>
        simp only [parseValue] at h
        split_ifs at h with h1 h2 h3 h4 h5 h6 h7 h8
        · obtain ⟨r2, _, hv⟩ := Option.map_eq_some'.mp h
          injection hv with hv1 _
          rw [← hv1]
          rfl
        · obtain ⟨r2, _, hv⟩ := Option.map_eq_some'.mp h
          injection hv with hv1 _
          rw [← hv1]
          rfl
        · obtain ⟨r2, _, hv⟩ := Option.map_eq_some'.mp h
          injection hv with hv1 _
          rw [← hv1]
          rfl
        · obtain ⟨p, _, hv⟩ := Option.map_eq_some'.mp h
          injection hv with hv1 _
          rw [← hv1]
          rfl
        · split at h
          · split_ifs at h
            injection h with hv
            injection hv with hv1 _
            rw [← hv1]
            rfl
          · simp at h
        · split at h
          · split_ifs at h with hc2
            · injection h with hv
              injection hv with hv1 _
              rw [← hv1]
              rfl
            · obtain ⟨p, hp, hv⟩ := Option.map_eq_some'.mp h
              injection hv with hv1 _
              rw [← hv1]
              simpa [wfV] using ihe _ _ _ hp
          · simp at h
        · split at h
          · split_ifs at h with hc2
            · injection h with hv
              injection hv with hv1 _
              rw [← hv1]
              rfl
            · obtain ⟨p, hp, hv⟩ := Option.map_eq_some'.mp h
              injection hv with hv1 _
              rw [← hv1]
              have hm := ihm _ _ _ hp
              simp [wfV, hm.1, hm.2]
          · simp at h
        · injection h with hv
          injection hv with hv1 _
          rw [← hv1]
          rfl
    · intro s vs r h
      simp only [parseElems] at h
      split at h
      · rename_i v c rest2 hpv
        split_ifs at h with hc1 hc2
        · obtain ⟨p2, hp2, hv⟩ := Option.map_eq_some'.mp h
          injection hv with hv1 _
          rw [← hv1]
          simp [wfL, ihv _ _ _ hpv, ihe _ _ _ hp2]
        · injection h with hv
          injection hv with hv1 _
          rw [← hv1]
          simp [wfL, wfV, ihv _ _ _ hpv]
      · simp at h
    · intro s fs r h
      simp only [parseMembers] at h
      split at h
      · rename_i c0 rest
        split_ifs at h with hc0
        split at h
        · rename_i key c1 rest2 hsb
          split_ifs at h with hc1
          split at h
          · rename_i v c2 rest3 hpv
            split_ifs at h with hc2 hc3
            · split at h
              · rename_i fs2 r2 hpm
                split_ifs at h with hdup
                have hm := ihm _ _ _ hpm
                injection h with hv
                injection hv with hv1 hv2
                rw [← hv1]
                refine ⟨?_, ?_⟩
                · simp [JsonFields.nodupKeys, hm.1, hdup]
                · simp [wfF, ihv _ _ _ hpv, hm.2]
              · simp at h
            · injection h with hv
              injection hv with hv1 hv2
              rw [← hv1]
              refine ⟨?_, ?_⟩
              · simp [JsonFields.nodupKeys, JsonFields.containsKey,
                  JsonFields.find?]
              · simp [wfF, wfV, ihv _ _ _ hpv]
          · simp at h
        · simp at h
      · simp at h

/-! ## Lemmas: the builder maintains the map invariant -/

/-- The map invariant of a claim-set object: distinct keys at the top
level and well-formed values. -/
def FieldsGood (fs : JsonFields) : Prop :=
  JsonFields.nodupKeys fs = true ∧ wfF fs = true

theorem containsKey_set (fs : JsonFields) (k : Str) (v : JsonValue)
    (k0 : Str) :
    JsonFields.containsKey (fs.set k v) k0 =
      if k0 = k then true else JsonFields.containsKey fs k0 := by
  unfold JsonFields.containsKey
  rw [JsonFields.find?_set]
  by_cases h : k0 = k <;> simp [h]

theorem set_good :
    ∀ (fs : JsonFields) (k : Str) (v : JsonValue),
      JsonFields.nodupKeys fs = true → wfF fs = true → wfV v = true →
      JsonFields.nodupKeys (fs.set k v) = true ∧ wfF (fs.set k v) = true
  | .nil, k, v => by
    intro _ _ hv
    simp [JsonFields.set, JsonFields.nodupKeys, JsonFields.containsKey,
      JsonFields.find?, wfF, hv]
  | .cons k1 v1 fs, k, v => by
    intro hnd hwf hv
    simp only [JsonFields.nodupKeys, Bool.and_eq_true,
      Bool.not_eq_true'] at hnd
    simp only [wfF, Bool.and_eq_true] at hwf
    by_cases h1 : k1 = k
    · rw [show (JsonFields.cons k1 v1 fs).set k v =
        JsonFields.cons k1 v fs from by simp [JsonFields.set, h1]]
      constructor
      · simp [JsonFields.nodupKeys, hnd.1, hnd.2]
      · simp [wfF, hv, hwf.2]
    · rw [show (JsonFields.cons k1 v1 fs).set k v =
        JsonFields.cons k1 v1 (fs.set k v) from by simp [JsonFields.set, h1]]
      have ih := set_good fs k v hnd.2 hwf.2 hv
      constructor
      · simp [JsonFields.nodupKeys, containsKey_set, h1, hnd.1, ih.1,
          fun hh : k1 = k => h1 hh]
      · simp [wfF, hwf.1, ih.2]

theorem snoc_wfL :
    ∀ (vs : JsonList) (v : JsonValue), wfL vs = true → wfV v = true →
      wfL (vs.snoc v) = true
  | .nil, v => by
    intro _ hv
    simp [JsonList.snoc, wfL, hv]
  | .cons w vs, v => by
    intro hvs hv
    simp only [wfL, Bool.and_eq_true] at hvs
    simp [JsonList.snoc, wfL, hvs.1, snoc_wfL vs v hvs.2 hv]

theorem find?_wfV :
    ∀ (fs : JsonFields) (k : Str) (v : JsonValue), wfF fs = true →
      JsonFields.find? fs k = some v → wfV v = true
  | .nil, k, v => by
    intro _ h
    simp [JsonFields.find?] at h
  | .cons k1 v1 fs, k, v => by
    intro hwf h
    simp only [wfF, Bool.and_eq_true] at hwf
    simp only [JsonFields.find?] at h
    split_ifs at h with h1
    · injection h with hv
      rw [← hv]
      exact hwf.1
    · exact find?_wfV fs k v hwf.2 h

theorem applyOp_good (b : RawJwtBuilder) (op : BuilderOp)
    (hb : FieldsGood b.json) : FieldsGood (applyOp b op).json := by
  obtain ⟨hnd, hwf⟩ := hb
  cases op with
  | setIssuer s =>
    exact set_good b.json _ _ hnd hwf (by rfl)
  | setSubject s =>
    exact set_good b.json _ _ hnd hwf (by rfl)
  | setJwtId s =>
    exact set_good b.json _ _ hnd hwf (by rfl)
  | setExpiration t =>
    exact set_good b.json _ _ hnd hwf (by rfl)
  | setNotBefore t =>
    exact set_good b.json _ _ hnd hwf (by rfl)
  | setIssuedAt t =>
    exact set_good b.json _ _ hnd hwf (by rfl)
  | addAudience s =>
    have hcur : wfL (match b.json.find? kJwtClaimAudience with
        | some (.listValue vs) => vs
        | _ => JsonList.nil) = true := by
      cases hf : b.json.find? kJwtClaimAudience with
      | none => rfl
      | some w =>
        cases w with
        | listValue vs =>
          have := find?_wfV b.json kJwtClaimAudience (.listValue vs) hwf hf
          simpa [wfV] using this
        | nullValue => rfl
        | boolValue bb => rfl
        | numberValue nn => rfl
        | stringValue ss => rfl
        | structValue ff => rfl
    refine set_good b.json _ _ hnd hwf ?_
    simpa [wfV] using snoc_wfL _ (.stringValue s) hcur (by rfl)
  | addNullClaim n =>
    simp only [applyOp, RawJwtBuilder.AddNullClaim]
    cases ValidatePayloadName n with
    | error e => exact ⟨hnd, hwf⟩
    | ok u =>
      simpa [Except.toOption] using set_good b.json _ _ hnd hwf (by rfl)
  | addBooleanClaim n bv =>
    simp only [applyOp, RawJwtBuilder.AddBooleanClaim]
    cases ValidatePayloadName n with
    | error e => exact ⟨hnd, hwf⟩
    | ok u =>
      simpa [Except.toOption] using set_good b.json _ _ hnd hwf (by rfl)
  | addStringClaim n sv =>
    simp only [applyOp, RawJwtBuilder.AddStringClaim]
    cases ValidatePayloadName n with
    | error e => exact ⟨hnd, hwf⟩
    | ok u =>
      simpa [Except.toOption] using set_good b.json _ _ hnd hwf (by rfl)
  | addNumberClaim n nv =>
    simp only [applyOp, RawJwtBuilder.AddNumberClaim]
    cases ValidatePayloadName n with
    | error e => exact ⟨hnd, hwf⟩
    | ok u =>
      simpa [Except.toOption] using set_good b.json _ _ hnd hwf (by rfl)
  | addJsonObjectClaim n txt =>
    simp only [applyOp, RawJwtBuilder.AddJsonObjectClaim]
    cases hvp : ValidatePayloadName n with
    | error e => exact ⟨hnd, hwf⟩
    | ok u =>
      cases hps : JsonStringToProtoStruct txt with
      | none => exact ⟨hnd, hwf⟩
      | some fs2 =>
        refine set_good b.json _ _ hnd hwf ?_
        unfold JsonStringToProtoStruct at hps
        split at hps
        · rename_i fs3 heq
          injection hps with hfs
          rw [← hfs]
          exact (parse_wf _).1 _ _ _ heq
        · simp at hps
  | addJsonArrayClaim n txt =>
    simp only [applyOp, RawJwtBuilder.AddJsonArrayClaim]
    cases hvp : ValidatePayloadName n with
    | error e => exact ⟨hnd, hwf⟩
    | ok u =>
      cases hps : JsonStringToProtoList txt with
      | none => exact ⟨hnd, hwf⟩
      | some vs2 =>
        refine set_good b.json _ _ hnd hwf ?_
        unfold JsonStringToProtoList at hps
        split at hps
        · rename_i vs3 heq
          injection hps with hvs
          rw [← hvs]
          exact (parse_wf _).1 _ _ _ heq
        · simp at hps

theorem foldl_good : ∀ (ops : List BuilderOp) (b : RawJwtBuilder),
    FieldsGood b.json → FieldsGood (ops.foldl applyOp b).json := by
  intro ops
  induction ops with
  | nil => intro b hb; exact hb
  | cons op ops ih =>
    intro b hb
    exact ih (applyOp b op) (applyOp_good b op hb)

/-- Every builder-produced claim set satisfies the protobuf-map
invariant. -/
theorem runOps_good (ops : List BuilderOp) :
    FieldsGood (runOps ops).json :=
  foldl_good ops ⟨.nil⟩ ⟨rfl, rfl⟩

/-! ## Lemmas: compact splitting -/

theorem lastDotSplit_none : ∀ s : Str, (∀ c ∈ s, c ≠ 46) →
    lastDotSplit s = none := by
  intro s
  induction s with
  | nil => intro _; rfl
  | cons c rest ih =>
    intro h
    have hc : c ≠ 46 := h c (by simp)
    simp [lastDotSplit, ih (fun d hd => h d (by simp [hd])), hc]

theorem lastDotSplit_append : ∀ x t : Str, (∀ c ∈ t, c ≠ 46) →
    lastDotSplit (x ++ 46 :: t) = some (x, t) := by
  intro x t ht
  induction x with
  | nil =>
    simp [lastDotSplit, lastDotSplit_none t ht]
  | cons c x ih =>
    simp [lastDotSplit, ih]

theorem splitOnDot_dotfree : ∀ s : Str, (∀ c ∈ s, c ≠ 46) →
    splitOnDot s = [s] := by
  intro s
  induction s with
  | nil => intro _; rfl
  | cons c rest ih =>
    intro h
    have hc : c ≠ 46 := h c (by simp)
    simp [splitOnDot, hc, ih (fun d hd => h d (by simp [hd]))]

theorem splitOnDot_first : ∀ h rest : Str, (∀ c ∈ h, c ≠ 46) →
    splitOnDot (h ++ 46 :: rest) = h :: splitOnDot rest := by
  intro h rest hh
  induction h with
  | nil => simp [splitOnDot]
  | cons c x ih =>
    have hc : c ≠ 46 := hh c (by simp)
    have hx := ih (fun d hd => hh d (by simp [hd]))
    simp [splitOnDot, hc, hx]

theorem splitOnDot_two (h p : Str) (hh : ∀ c ∈ h, c ≠ 46)
    (hp : ∀ c ∈ p, c ≠ 46) : splitOnDot (h ++ 46 :: p) = [h, p] := by
  rw [splitOnDot_first h p hh, splitOnDot_dotfree p hp]

/-! ## Lemmas: the sign-then-verify pipeline -/

theorem base64_dotfree (bs : Str) : ∀ c ∈ base64UrlEncode bs, c ≠ 46 := by
  intro c hc
  obtain ⟨m, hm⟩ := mem_base64UrlEncode bs c hc
  rw [hm]
  exact (b64Char_ne m).1

theorem JsonStringToProtoStruct_ser (fs : JsonFields)
    (h : (JsonFields.nodupKeys fs && wfF fs) = true) :
    JsonStringToProtoStruct (serV (.structValue fs)) = some fs := by
  have hwf : wfV (.structValue fs) = true := by simpa [wfV] using h
  have hsz : jsizeV (.structValue fs) ≤ (serV (.structValue fs)).length :=
    (jsize_le_ser (jsizeV (.structValue fs))).1 _ le_rfl
  have hp := (parse_ser_roundtrip ((serV (.structValue fs)).length + 1)).1
    (.structValue fs) [] hwf (by rfl) (by omega)
  rw [List.append_nil] at hp
  unfold JsonStringToProtoStruct
  rw [hp]

theorem ValidateHeader_CreateHeader (alg : Str) (halg : strOk alg = true) :
    ValidateHeader (CreateHeader alg) alg = .ok () := by
  have h1 : strOk (lit "alg") = true := by decide
  have h2 : strOk (lit "typ") = true := by decide
  have h3 : strOk (lit "JWT") = true := by decide
  have hbv : bytesOkV (.structValue
      (.cons (lit "alg") (.stringValue alg)
        (.cons (lit "typ") (.stringValue (lit "JWT")) .nil))) = true := by
    simp [bytesOkV, bytesOkF, halg, h1, h2, h3]
  have hbyte : ByteOk (serV (.structValue
      (.cons (lit "alg") (.stringValue alg)
        (.cons (lit "typ") (.stringValue (lit "JWT")) .nil)))) :=
    (ser_byteOk _).1 _ le_rfl hbv
  have hdec := base64UrlDecode_encode _ hbyte
  have hnodup : (JsonFields.nodupKeys
      (.cons (lit "alg") (.stringValue alg)
        (.cons (lit "typ") (.stringValue (lit "JWT")) .nil)) &&
      wfF (.cons (lit "alg") (.stringValue alg)
        (.cons (lit "typ") (.stringValue (lit "JWT")) .nil))) = true := rfl
  have hparse := JsonStringToProtoStruct_ser _ hnodup
  have hftyp : JsonFields.find?
      (.cons (lit "alg") (.stringValue alg)
        (.cons (lit "typ") (.stringValue (lit "JWT")) .nil)) (lit "typ") =
      some (.stringValue (lit "JWT")) := rfl
  have hfalg : JsonFields.find?
      (.cons (lit "alg") (.stringValue alg)
        (.cons (lit "typ") (.stringValue (lit "JWT")) .nil)) (lit "alg") =
      some (.stringValue alg) := rfl
  have hfcrit : JsonFields.find?
      (.cons (lit "alg") (.stringValue alg)
        (.cons (lit "typ") (.stringValue (lit "JWT")) .nil)) (lit "crit") =
      none := rfl
  unfold ValidateHeader CreateHeader
  simp only [hdec, hparse, hftyp, hfalg, hfcrit]
  simp

/-- The validator's time window accepts the claim set: the expiration
check and the not-before check of `JwtValidator::Validate` both pass at
`fixedNow` with the given clock skew. -/
def windowOk (fs : JsonFields) (v : JwtValidator) : Bool :=
  (match fs.find? kJwtClaimExpiration with
    | some (.numberValue e) => decide (v.fixedNow < e + v.clockSkew)
    | some _ => false
    | none => v.allowMissingExpiration) &&
  (match fs.find? kJwtClaimNotBefore with
    | some (.numberValue nbf) => decide (nbf - v.clockSkew ≤ v.fixedNow)
    | some _ => false
    | none => true)

theorem validate_ok (fs : JsonFields) (v : JwtValidator)
    (hiss : v.expectedIssuer = none) (hsub : v.expectedSubject = none)
    (haud : v.expectedAudience = none)
    (hwin : windowOk fs v = true) :
    JwtValidator.Validate v ⟨fs⟩ = .ok () := by
  unfold windowOk at hwin
  rw [Bool.and_eq_true] at hwin
  obtain ⟨hexp, hnbf⟩ := hwin
  have hexpok : (match fs.find? kJwtClaimExpiration with
      | some (.numberValue e) =>
        if v.fixedNow < e + v.clockSkew then Except.ok ()
        else Except.error JwtError.tokenExpired
      | some _ => Except.error JwtError.invalidArgument
      | none =>
        if v.allowMissingExpiration then Except.ok ()
        else Except.error JwtError.tokenExpired) =
      (Except.ok () : Except JwtError Unit) := by
    cases hfe : fs.find? kJwtClaimExpiration with
    | none =>
      rw [hfe] at hexp
      have hm : v.allowMissingExpiration = true := hexp
      show (if v.allowMissingExpiration then Except.ok ()
        else Except.error JwtError.tokenExpired) =
          (Except.ok () : Except JwtError Unit)
      rw [hm]
      rfl
    | some w =>
      rw [hfe] at hexp
      cases w with
      | numberValue e =>
        have hlt := of_decide_eq_true hexp
        show (if v.fixedNow < e + v.clockSkew then Except.ok ()
          else Except.error JwtError.tokenExpired) =
            (Except.ok () : Except JwtError Unit)
        rw [if_pos hlt]
      | nullValue => exact Bool.noConfusion hexp
      | boolValue b => exact Bool.noConfusion hexp
      | stringValue s => exact Bool.noConfusion hexp
      | listValue vs => exact Bool.noConfusion hexp
      | structValue ff => exact Bool.noConfusion hexp
  have hnbfok : (match fs.find? kJwtClaimNotBefore with
      | some (.numberValue nbf) =>
        if nbf - v.clockSkew ≤ v.fixedNow then Except.ok ()
        else Except.error JwtError.notYetValid
      | some _ => Except.error JwtError.invalidArgument
      | none => Except.ok ()) =
      (Except.ok () : Except JwtError Unit) := by
    cases hfn : fs.find? kJwtClaimNotBefore with
    | none => rfl
    | some w =>
      rw [hfn] at hnbf
      cases w with
      | numberValue e =>
        have hle := of_decide_eq_true hnbf
        show (if e - v.clockSkew ≤ v.fixedNow then Except.ok ()
          else Except.error JwtError.notYetValid) =
            (Except.ok () : Except JwtError Unit)
        rw [if_pos hle]
      | nullValue => exact Bool.noConfusion hnbf
      | boolValue b => exact Bool.noConfusion hnbf
      | stringValue s => exact Bool.noConfusion hnbf
      | listValue vs => exact Bool.noConfusion hnbf
      | structValue ff => exact Bool.noConfusion hnbf
  simp only [JwtValidator.Validate, hiss, hsub, haud, hexpok, hnbfok]

/-! ## Kind predicates (for stating wrong-kind accessor behavior) -/

/-- The stored value is not a JSON String. -/
def notStringKind : JsonValue → Prop
  | .stringValue _ => False
  | _ => True

/-- The stored value is not a JSON Number. -/
def notNumberKind : JsonValue → Prop
  | .numberValue _ => False
  | _ => True

/-- The stored value is not a JSON Array. -/
def notListKind : JsonValue → Prop
  | .listValue _ => False
  | _ => True

/-! # Claim theorems -/

/-- C5 (counterexample): when the `aud` claim is stored as the single
JSON string `"a"`, `GetAudiences` fails with `InvalidArgument` instead of
returning the one-element list `["a"]` the claim describes. -/
theorem c5_aud_single_string_counterexample :
    RawJwt.GetAudiences ⟨.cons kJwtClaimAudience
        (.stringValue (lit "a")) .nil⟩ = .error .invalidArgument ∧
      RawJwt.GetAudiences ⟨.cons kJwtClaimAudience
        (.stringValue (lit "a")) .nil⟩ ≠ .ok [lit "a"] := by
  constructor
  · decide
  · decide

/-- C5 (amended): `GetAudiences` returns the stored list when `aud` is an
Array of Strings; an absent `aud` fails with `NotFound`; a single String
— like every other non-Array kind — fails with `InvalidArgument`. -/
theorem c5_getAudiences_amended (fs : JsonFields) :
    (JsonFields.find? fs kJwtClaimAudience = none →
      RawJwt.GetAudiences ⟨fs⟩ = .error .notFound) ∧
    (∀ ss : List Str,
      JsonFields.find? fs kJwtClaimAudience =
        some (.listValue (strList ss)) →
      RawJwt.GetAudiences ⟨fs⟩ = .ok ss) ∧
    (∀ w, JsonFields.find? fs kJwtClaimAudience = some w → notListKind w →
      RawJwt.GetAudiences ⟨fs⟩ = .error .invalidArgument) := by
  refine ⟨?_, ?_, ?_⟩
  · intro h
    simp [RawJwt.GetAudiences, h]
  · intro ss h
    simp [RawJwt.GetAudiences, h, audiencesOf_strList]
  · intro w h hw
    cases w with
    | listValue vs => exact hw.elim
    | nullValue => simp [RawJwt.GetAudiences, h]
    | boolValue b => simp [RawJwt.GetAudiences, h]
    | numberValue n => simp [RawJwt.GetAudiences, h]
    | stringValue s => simp [RawJwt.GetAudiences, h]
    | structValue fs2 => simp [RawJwt.GetAudiences, h]

/-- C5 (witness): the amended theorem applied at concrete claim sets. -/
theorem c5_getAudiences_witness :
    RawJwt.GetAudiences ⟨.nil⟩ = .error .notFound ∧
    RawJwt.GetAudiences ⟨.cons kJwtClaimAudience
        (.listValue (strList [lit "a", lit "b"])) .nil⟩ =
      .ok [lit "a", lit "b"] ∧
    RawJwt.GetAudiences ⟨.cons kJwtClaimAudience
        (.numberValue 3) .nil⟩ = .error .invalidArgument :=
  ⟨(c5_getAudiences_amended .nil).1 (by decide),
    (c5_getAudiences_amended _).2.1 [lit "a", lit "b"] (by decide),
    (c5_getAudiences_amended _).2.2 (.numberValue 3) (by decide)
      (by trivial)⟩

/-- C6 (counterexample): `GetIssuer` on a claim set without `iss` fails
with `InvalidArgument`, not with the `NotFound` kind the claim names. -/
theorem c6_absent_issuer_counterexample :
    RawJwt.GetIssuer ⟨.nil⟩ = .error .invalidArgument ∧
      RawJwt.GetIssuer ⟨.nil⟩ ≠ .error .notFound := by
  constructor
  · decide
  · decide

/-- C6 (amended): on an absent claim, `GetIssuer` and `GetSubject` fail
with `InvalidArgument` while the other five registered accessors fail
with `NotFound`; on a claim present with the wrong JSON kind, all seven
fail with `InvalidArgument`. -/
theorem c6_registered_accessor_errors (fs : JsonFields) :
    (JsonFields.find? fs kJwtClaimIssuer = none →
      RawJwt.GetIssuer ⟨fs⟩ = .error .invalidArgument) ∧
    (JsonFields.find? fs kJwtClaimSubject = none →
      RawJwt.GetSubject ⟨fs⟩ = .error .invalidArgument) ∧
    (JsonFields.find? fs kJwtClaimAudience = none →
      RawJwt.GetAudiences ⟨fs⟩ = .error .notFound) ∧
    (JsonFields.find? fs kJwtClaimExpiration = none →
      RawJwt.GetExpiration ⟨fs⟩ = .error .notFound) ∧
    (JsonFields.find? fs kJwtClaimNotBefore = none →
      RawJwt.GetNotBefore ⟨fs⟩ = .error .notFound) ∧
    (JsonFields.find? fs kJwtClaimIssuedAt = none →
      RawJwt.GetIssuedAt ⟨fs⟩ = .error .notFound) ∧
    (JsonFields.find? fs kJwtClaimJwtId = none →
      RawJwt.GetJwtId ⟨fs⟩ = .error .notFound) ∧
    (∀ w, JsonFields.find? fs kJwtClaimIssuer = some w → notStringKind w →
      RawJwt.GetIssuer ⟨fs⟩ = .error .invalidArgument) ∧
    (∀ w, JsonFields.find? fs kJwtClaimSubject = some w → notStringKind w →
      RawJwt.GetSubject ⟨fs⟩ = .error .invalidArgument) ∧
    (∀ w, JsonFields.find? fs kJwtClaimAudience = some w → notListKind w →
      RawJwt.GetAudiences ⟨fs⟩ = .error .invalidArgument) ∧
    (∀ w, JsonFields.find? fs kJwtClaimExpiration = some w →
      notNumberKind w →
      RawJwt.GetExpiration ⟨fs⟩ = .error .invalidArgument) ∧
    (∀ w, JsonFields.find? fs kJwtClaimNotBefore = some w →
      notNumberKind w →
      RawJwt.GetNotBefore ⟨fs⟩ = .error .invalidArgument) ∧
    (∀ w, JsonFields.find? fs kJwtClaimIssuedAt = some w →
      notNumberKind w →
      RawJwt.GetIssuedAt ⟨fs⟩ = .error .invalidArgument) ∧
    (∀ w, JsonFields.find? fs kJwtClaimJwtId = some w → notStringKind w →
      RawJwt.GetJwtId ⟨fs⟩ = .error .invalidArgument) := by
  refine ⟨fun h => by simp [RawJwt.GetIssuer, h],
    fun h => by simp [RawJwt.GetSubject, h],
    fun h => by simp [RawJwt.GetAudiences, h],
    fun h => by simp [RawJwt.GetExpiration, h],
    fun h => by simp [RawJwt.GetNotBefore, h],
    fun h => by simp [RawJwt.GetIssuedAt, h],
    fun h => by simp [RawJwt.GetJwtId, h],
    ?_, ?_, ?_, ?_, ?_, ?_, ?_⟩
  · intro w h hw
    cases w <;> first
      | exact hw.elim
      | simp [RawJwt.GetIssuer, h]
  · intro w h hw
    cases w <;> first
      | exact hw.elim
      | simp [RawJwt.GetSubject, h]
  · intro w h hw
    cases w <;> first
      | exact hw.elim
      | simp [RawJwt.GetAudiences, h]
  · intro w h hw
    cases w <;> first
      | exact hw.elim
      | simp [RawJwt.GetExpiration, h]
  · intro w h hw
    cases w <;> first
      | exact hw.elim
      | simp [RawJwt.GetNotBefore, h]
  · intro w h hw
    cases w <;> first
      | exact hw.elim
      | simp [RawJwt.GetIssuedAt, h]
  · intro w h hw
    cases w <;> first
      | exact hw.elim
      | simp [RawJwt.GetJwtId, h]

/-- C6 (witness): the amended theorem applied at concrete claim sets. -/
theorem c6_registered_accessor_witness :
    RawJwt.GetIssuer ⟨.nil⟩ = .error .invalidArgument ∧
    RawJwt.GetAudiences ⟨.nil⟩ = .error .notFound ∧
    RawJwt.GetExpiration ⟨.cons kJwtClaimExpiration
        (.stringValue (lit "soon")) .nil⟩ = .error .invalidArgument :=
  ⟨(c6_registered_accessor_errors .nil).1 (by decide),
    (c6_registered_accessor_errors .nil).2.2.1 (by decide),
    (c6_registered_accessor_errors _).2.2.2.2.2.2.2.2.2.2.1
      (.stringValue (lit "soon")) (by decide) (by trivial)⟩

/-- C7 (counterexample): `SetExpiration`, `SetNotBefore` and `SetIssuedAt`
accept the negative timestamp −5 and store the claim, instead of
rejecting it with `InvalidArgument` — the setters have no error path at
all. -/
theorem c7_negative_timestamp_counterexample :
    ((RawJwtBuilder.SetExpiration ⟨.nil⟩ (-5)).json.find?
        kJwtClaimExpiration = some (.numberValue (-5))) ∧
    ((RawJwtBuilder.SetNotBefore ⟨.nil⟩ (-5)).json.find?
        kJwtClaimNotBefore = some (.numberValue (-5))) ∧
    ((RawJwtBuilder.SetIssuedAt ⟨.nil⟩ (-5)).json.find?
        kJwtClaimIssuedAt = some (.numberValue (-5))) := by
  refine ⟨?_, ?_, ?_⟩ <;> decide

/-- C7 (amended): the time setters never reject: for every timestamp,
including negative ones, the claim is stored with the value
`static_cast<int>(t)` (two's-complement wrap to 32 bits), which equals
`t` itself whenever `t` fits in 32 bits. -/
theorem c7_time_setters_amended (b : RawJwtBuilder) (t : Int) :
    ((b.SetExpiration t).json.find? kJwtClaimExpiration =
      some (.numberValue (toInt32 t))) ∧
    ((b.SetNotBefore t).json.find? kJwtClaimNotBefore =
      some (.numberValue (toInt32 t))) ∧
    ((b.SetIssuedAt t).json.find? kJwtClaimIssuedAt =
      some (.numberValue (toInt32 t))) ∧
    (-2147483648 ≤ t → t < 2147483648 → toInt32 t = t) := by
  refine ⟨?_, ?_, ?_, ?_⟩
  · simp [RawJwtBuilder.SetExpiration, JsonFields.find?_set]
  · simp [RawJwtBuilder.SetNotBefore, JsonFields.find?_set]
  · simp [RawJwtBuilder.SetIssuedAt, JsonFields.find?_set]
  · intro h1 h2
    unfold toInt32
    omega

/-- C7 (witness): the amended theorem applied at the fresh builder and
timestamp −5. -/
theorem c7_time_setters_witness :
    ((RawJwtBuilder.SetExpiration ⟨.nil⟩ (-5)).json.find?
        kJwtClaimExpiration = some (.numberValue (toInt32 (-5)))) ∧
      toInt32 (-5) = -5 :=
  ⟨(c7_time_setters_amended ⟨.nil⟩ (-5)).1,
    (c7_time_setters_amended ⟨.nil⟩ (-5)).2.2.2 (by decide) (by decide)⟩

/-- C8 (code bug, year-2038 overflow): `SetExpiration` stores
`static_cast<int>(absl::ToUnixSeconds(t))`; at the first timestamp that
does not fit in 32 bits, `t = 2147483648` (2038-01-19), the stored JSON
Number is `-2147483648` rather than `floor(t) = 2147483648`. -/
theorem c8_expiration_overflow :
    (RawJwtBuilder.SetExpiration ⟨.nil⟩ 2147483648).json.find?
        kJwtClaimExpiration = some (.numberValue (-2147483648)) ∧
      (RawJwtBuilder.SetExpiration ⟨.nil⟩ 2147483647).json.find?
        kJwtClaimExpiration = some (.numberValue 2147483647) := by
  constructor
  · decide
  · decide

/-- C9 (counterexample): the empty claim name is not registered, so
`AddStringClaim` accepts it and stores the claim, instead of failing with
`InvalidArgument` as the claim states. -/
theorem c9_empty_name_counterexample :
    RawJwtBuilder.AddStringClaim ⟨.nil⟩ [] (lit "v") =
      .ok ⟨.cons [] (.stringValue (lit "v")) .nil⟩ := by
  decide

/-- C9 (amended): every custom-claim adder fails with `InvalidArgument`
exactly on the seven registered claim names; every other name — the
empty name included — is accepted (the JSON-text adders additionally
require their text to parse). -/
theorem c9_custom_claim_names_amended (b : RawJwtBuilder) (name : Str) :
    (IsRegisteredClaimName name = true →
      b.AddNullClaim name = .error .invalidArgument ∧
      (∀ bv, b.AddBooleanClaim name bv = .error .invalidArgument) ∧
      (∀ s, b.AddStringClaim name s = .error .invalidArgument) ∧
      (∀ x, b.AddNumberClaim name x = .error .invalidArgument) ∧
      (∀ t, b.AddJsonObjectClaim name t = .error .invalidArgument) ∧
      (∀ t, b.AddJsonArrayClaim name t = .error .invalidArgument)) ∧
    (IsRegisteredClaimName name = false →
      (b.AddNullClaim name).isOk = true ∧
      (∀ bv, (b.AddBooleanClaim name bv).isOk = true) ∧
      (∀ s, (b.AddStringClaim name s).isOk = true) ∧
      (∀ x, (b.AddNumberClaim name x).isOk = true) ∧
      (∀ t fs2, JsonStringToProtoStruct t = some fs2 →
        (b.AddJsonObjectClaim name t).isOk = true) ∧
      (∀ t vs, JsonStringToProtoList t = some vs →
        (b.AddJsonArrayClaim name t).isOk = true)) := by
  constructor
  · intro h
    refine ⟨?_, ?_, ?_, ?_, ?_, ?_⟩ <;>
      simp [RawJwtBuilder.AddNullClaim, RawJwtBuilder.AddBooleanClaim,
        RawJwtBuilder.AddStringClaim, RawJwtBuilder.AddNumberClaim,
        RawJwtBuilder.AddJsonObjectClaim, RawJwtBuilder.AddJsonArrayClaim,
        ValidatePayloadName, h]
  · intro h
    refine ⟨?_, ?_, ?_, ?_, ?_, ?_⟩
    · simp [RawJwtBuilder.AddNullClaim, ValidatePayloadName, h,
        Except.isOk, Except.toBool]
    · intro bv
      simp [RawJwtBuilder.AddBooleanClaim, ValidatePayloadName, h,
        Except.isOk, Except.toBool]
    · intro s
      simp [RawJwtBuilder.AddStringClaim, ValidatePayloadName, h,
        Except.isOk, Except.toBool]
    · intro x
      simp [RawJwtBuilder.AddNumberClaim, ValidatePayloadName, h,
        Except.isOk, Except.toBool]
    · intro t fs2 ht
      simp [RawJwtBuilder.AddJsonObjectClaim, ValidatePayloadName, h, ht,
        Except.isOk, Except.toBool]
    · intro t vs ht
      simp [RawJwtBuilder.AddJsonArrayClaim, ValidatePayloadName, h, ht,
        Except.isOk, Except.toBool]

/-- C9 (witness): the amended theorem applied at the registered name
`iss`, and at the empty name with a concrete JSON object text. -/
theorem c9_custom_claim_names_witness :
    RawJwtBuilder.AddNullClaim ⟨.nil⟩ kJwtClaimIssuer =
        .error .invalidArgument ∧
      (RawJwtBuilder.AddStringClaim ⟨.nil⟩ [] (lit "v")).isOk = true ∧
      (RawJwtBuilder.AddJsonObjectClaim ⟨.nil⟩ [] [123, 125]).isOk = true :=
  ⟨((c9_custom_claim_names_amended ⟨.nil⟩ kJwtClaimIssuer).1
      (by decide)).1,
    ((c9_custom_claim_names_amended ⟨.nil⟩ []).2 (by decide)).2.2.1
      (lit "v"),
    ((c9_custom_claim_names_amended ⟨.nil⟩ []).2 (by decide)).2.2.2.2.1
      [123, 125] .nil (by decide)⟩

/-- C10: `RawJwtBuilder::Build` never fails: for every builder state it
returns a `RawJwt` wrapping the accumulated JSON object. -/
theorem c10_build_total (b : RawJwtBuilder) : b.Build = .ok ⟨b.json⟩ := rfl

/-- C3: MAC verification precedes any parsing beyond the last-dot split:
whenever the trailing segment decodes as a tag that does not match the
recomputed MAC over the signing input, the result is the MAC error,
regardless of the header and payload contents. -/
theorem c3_mac_before_parse (m : JwtMacImpl) (compact : Str)
    (v : JwtValidator) (si ts tag : Str)
    (hsplit : lastDotSplit compact = some (si, ts))
    (hdec : DecodeSignature ts = some tag)
    (hne : tag ≠ m.computeMac si) :
    m.VerifyMacAndDecode compact v = .error .invalidMac := by
  simp [JwtMacImpl.VerifyMacAndDecode, hsplit, hdec,
    JwtMacImpl.VerifyMacRaw, hne]

/-- C3 (witness): a compact whose header and payload are not even valid
base64 fails with `InvalidMac`, because the MAC is checked first. -/
theorem c3_mac_before_parse_witness :
    (⟨lit "HS256", fun _ => [0, 1, 2]⟩ : JwtMacImpl).VerifyMacAndDecode
        (lit "@@.##.AB") {} = .error .invalidMac :=
  c3_mac_before_parse ⟨lit "HS256", fun _ => [0, 1, 2]⟩ (lit "@@.##.AB")
    {} (lit "@@.##") (lit "AB") [0] (by decide) (by decide) (by decide)

/-- C4 (counterexample): a compact whose signing input has no dot at all
("abc.AB") but whose MAC fails is rejected with `InvalidMac`, not the
`MalformedToken` the claim requires for a wrong dot count: the dot-count
check runs only after MAC verification. -/
theorem c4_dotcount_counterexample :
    (⟨lit "HS256", fun _ => [9]⟩ : JwtMacImpl).VerifyMacAndDecode
        (lit "abc.AB") {} = .error .invalidMac ∧
      (⟨lit "HS256", fun _ => [9]⟩ : JwtMacImpl).VerifyMacAndDecode
        (lit "abc.AB") {} ≠ .error .malformedToken := by
  constructor
  · decide
  · decide

/-- C4 (amended): a compact with no dot fails with `MalformedToken`;
once the tag decodes and the MAC verifies, a signing input whose dot
count is not exactly one fails with `MalformedToken`; empty header or
payload segments are not rejected by the split itself but fail later —
an empty header at header validation, an empty payload at payload
parsing — with `MalformedToken`. -/
theorem c4_split_amended (m : JwtMacImpl) (v : JwtValidator) :
    (∀ compact : Str, (∀ c ∈ compact, c ≠ 46) →
      m.VerifyMacAndDecode compact v = .error .malformedToken) ∧
    (∀ compact si ts tag, lastDotSplit compact = some (si, ts) →
      DecodeSignature ts = some tag → tag = m.computeMac si →
      (splitOnDot si).length ≠ 2 →
      m.VerifyMacAndDecode compact v = .error .malformedToken) ∧
    (∀ compact si ts tag p, lastDotSplit compact = some (si, ts) →
      DecodeSignature ts = some tag → tag = m.computeMac si →
      splitOnDot si = [[], p] →
      m.VerifyMacAndDecode compact v = .error .malformedToken) ∧
    (∀ compact si ts tag hd, lastDotSplit compact = some (si, ts) →
      DecodeSignature ts = some tag → tag = m.computeMac si →
      splitOnDot si = [hd, []] → ValidateHeader hd m.algorithm = .ok () →
      m.VerifyMacAndDecode compact v = .error .malformedToken) := by
  refine ⟨?_, ?_, ?_, ?_⟩
  · intro compact hfree
    simp [JwtMacImpl.VerifyMacAndDecode, lastDotSplit_none compact hfree]
  · intro compact si ts tag hsplit hdec htag hlen
    rcases hsp : splitOnDot si with _ | ⟨a, _ | ⟨b, _ | ⟨c, rest⟩⟩⟩ <;>
      simp [JwtMacImpl.VerifyMacAndDecode, hsplit, hdec,
        JwtMacImpl.VerifyMacRaw, htag, hsp] <;>
      rw [hsp] at hlen <;> simp at hlen
  · intro compact si ts tag p hsplit hdec htag hsp
    simp [JwtMacImpl.VerifyMacAndDecode, hsplit, hdec,
      JwtMacImpl.VerifyMacRaw, htag, hsp, ValidateHeader,
      base64UrlDecode, stripPadding, base64UrlDecodeCore,
      JsonStringToProtoStruct, parseValue]
  · intro compact si ts tag hd hsplit hdec htag hsp hvalid
    simp [JwtMacImpl.VerifyMacAndDecode, hsplit, hdec,
      JwtMacImpl.VerifyMacRaw, htag, hsp, hvalid, DecodePayload,
      base64UrlDecode, stripPadding, base64UrlDecodeCore,
      RawJwt.FromString, JsonStringToProtoStruct, parseValue]

/-- C4 (witness): the amended theorem applied at concrete tokens. -/
theorem c4_split_amended_witness :
    (⟨lit "HS256", fun _ => [9]⟩ : JwtMacImpl).VerifyMacAndDecode
        (lit "abcdef") {} = .error .malformedToken ∧
    (⟨lit "HS256", fun _ => [0]⟩ : JwtMacImpl).VerifyMacAndDecode
        (lit "abc.AB") {} = .error .malformedToken ∧
    (⟨lit "HS256", fun _ => [0]⟩ : JwtMacImpl).VerifyMacAndDecode
        (lit ".abc.AB") {} = .error .malformedToken :=
  ⟨(c4_split_amended ⟨lit "HS256", fun _ => [9]⟩ {}).1 (lit "abcdef")
      (by decide),
    (c4_split_amended ⟨lit "HS256", fun _ => [0]⟩ {}).2.1 (lit "abc.AB")
      (lit "abc") (lit "AB") [0] (by decide) (by decide) (by decide)
      (by decide),
    (c4_split_amended ⟨lit "HS256", fun _ => [0]⟩ {}).2.2.1
      (lit ".abc.AB") (lit ".abc") (lit "AB") [0] (lit "abc") (by decide)
      (by decide) (by decide) (by decide)⟩

/-! ## An injective MAC with byte-valued tags (digit prefix code) -/

/-- A strawman MAC primitive: each message byte becomes its decimal
digits followed by a comma.  It is injective and returns genuine bytes,
which is all the flip theorem asks of a MAC. -/
def digitsMac : Str → Str
  | [] => []
  | n :: rest => natToDigits n ++ 44 :: digitsMac rest

theorem digitsMac_byteOk : ∀ s : Str, ByteOk (digitsMac s) := by
  intro s
  induction s with
  | nil => intro b hb; simp [digitsMac] at hb
  | cons n rest ih =>
    intro b hb
    simp only [digitsMac, List.mem_append, List.mem_cons] at hb
    rcases hb with h | h | h
    · have := natToDigits_digits n b h
      omega
    · omega
    · exact ih b h

theorem sep44_inj : ∀ xs : Str, ∀ ys : Str,
    (∀ c ∈ xs, c ≠ 44) → (∀ c ∈ ys, c ≠ 44) →
    ∀ s t : Str, xs ++ 44 :: s = ys ++ 44 :: t → xs = ys ∧ s = t := by
  intro xs
  induction xs with
  | nil =>
    intro ys _ hy s t h
    cases ys with
    | nil =>
      rw [List.nil_append, List.nil_append] at h
      injection h with _ h2
      exact ⟨rfl, h2⟩
    | cons y ys =>
      rw [List.nil_append, List.cons_append] at h
      injection h with h1 _
      exact absurd h1.symm (hy y (by simp))
  | cons x xs ih =>
    intro ys hx hy s t h
    cases ys with
    | nil =>
      rw [List.cons_append, List.nil_append] at h
      injection h with h1 _
      exact absurd h1 (hx x (by simp))
    | cons y ys =>
      rw [List.cons_append, List.cons_append] at h
      injection h with h1 h2
      obtain ⟨he, hst⟩ := ih ys (fun c hc => hx c (by simp [hc]))
        (fun c hc => hy c (by simp [hc])) s t h2
      exact ⟨by rw [h1, he], hst⟩

theorem natToDigits_inj (a b : Nat) (h : natToDigits a = natToDigits b) :
    a = b := by
  rw [← natToDigits_val a, ← natToDigits_val b, h]

theorem digitsMac_inj : Function.Injective digitsMac := by
  intro s
  induction s with
  | nil =>
    intro t h
    cases t with
    | nil => rfl
    | cons b t =>
      exfalso
      simp only [digitsMac] at h
      have hlen := congrArg List.length h
      simp only [List.length_nil, List.length_append, List.length_cons]
        at hlen
      have hpos : 0 < (natToDigits b).length :=
        List.length_pos.mpr (natToDigits_ne_nil b)
      omega
  | cons a s ih =>
    intro t h
    cases t with
    | nil =>
      exfalso
      simp only [digitsMac] at h
      have hlen := congrArg List.length h
      simp only [List.length_nil, List.length_append, List.length_cons]
        at hlen
      have hpos : 0 < (natToDigits a).length :=
        List.length_pos.mpr (natToDigits_ne_nil a)
      omega
    | cons b t =>
      simp only [digitsMac] at h
      have hdx : ∀ c ∈ natToDigits a, c ≠ 44 := fun c hc => by
        have := natToDigits_digits a c hc
        omega
      have hdy : ∀ c ∈ natToDigits b, c ≠ 44 := fun c hc => by
        have := natToDigits_digits b c hc
        omega
      obtain ⟨hd, hrest⟩ := sep44_inj (natToDigits a) (natToDigits b)
        hdx hdy _ _ h
      rw [natToDigits_inj a b hd, ih hrest]

/-! ## Lemmas: the flipped-separator case -/

/-- Flipping the tag separator of a well-shaped compact (dot-free
header, payload, and remainder) produces either a malformed-token error
or a MAC error: if the tag part decodes and the MAC happens to verify,
the signing input has only one segment and the two-segment check
fails. -/
theorem flip_sep_case (m : JwtMacImpl) (v : JwtValidator)
    (H P T2 : Str) (b : Nat)
    (hHd : ∀ c ∈ H, c ≠ 46) (hPd : ∀ c ∈ P, c ≠ 46)
    (hTd : ∀ c ∈ T2, c ≠ 46) (hb : b ≠ 46) :
    m.VerifyMacAndDecode (H ++ 46 :: (P ++ b :: T2)) v =
        .error .malformedToken ∨
    m.VerifyMacAndDecode (H ++ 46 :: (P ++ b :: T2)) v =
        .error .invalidMac := by
  have htail : ∀ c ∈ P ++ b :: T2, c ≠ 46 := by
    intro c hc
    rcases List.mem_append.mp hc with h | h
    · exact hPd c h
    · rcases List.mem_cons.mp h with h | h
      · rw [h]; exact hb
      · exact hTd c h
  have hsp := lastDotSplit_append H (P ++ b :: T2) htail
  cases hdec : DecodeSignature (P ++ b :: T2) with
  | none =>
    left
    simp only [JwtMacImpl.VerifyMacAndDecode, hsp, hdec]
  | some mac2 =>
    by_cases hm : mac2 = m.computeMac H
    · left
      have hsH : splitOnDot H = [H] := splitOnDot_dotfree H hHd
      simp only [JwtMacImpl.VerifyMacAndDecode, hsp, hdec,
        JwtMacImpl.VerifyMacRaw, hm, hsH]
      simp
    · right
      simp only [JwtMacImpl.VerifyMacAndDecode, hsp, hdec,
        JwtMacImpl.VerifyMacRaw]
      rw [if_neg hm]

/-- **C1**: for every MAC primitive returning genuine tag bytes, every
byte-clean algorithm name, and every claim set accepted by the builder
(any sequence of builder calls), verifying the compact token produced by
`ComputeMacAndEncode` with `VerifyMacAndDecode`, under a validator with
no issuer/subject/audience policy whose time window accepts the claim
set, succeeds and yields a `VerifiedJwt` whose claims equal the built
claim set. -/
theorem c1_roundtrip (m : JwtMacImpl) (ops : List BuilderOp)
    (validator : JwtValidator)
    (halg : strOk m.algorithm = true)
    (hmac : ∀ msg, ByteOk (m.computeMac msg))
    (hbytes : bytesOkF (runOps ops).json = true)
    (hiss : validator.expectedIssuer = none)
    (hsub : validator.expectedSubject = none)
    (haud : validator.expectedAudience = none)
    (hwin : windowOk (runOps ops).json validator = true)
    (jwt : RawJwt) (hbuild : (runOps ops).Build = .ok jwt)
    (compact : Str) (henc : m.ComputeMacAndEncode jwt = .ok compact) :
    m.VerifyMacAndDecode compact validator = .ok ⟨jwt⟩ := by
  have hjwt : jwt = ⟨(runOps ops).json⟩ := by
    unfold RawJwtBuilder.Build at hbuild
    injection hbuild with h
    exact h.symm
  subst hjwt
  have hcompact : compact =
      (CreateHeader m.algorithm ++ 46 ::
        base64UrlEncode (serV (.structValue (runOps ops).json))) ++ 46 ::
        base64UrlEncode (m.computeMac
          (CreateHeader m.algorithm ++ 46 ::
            base64UrlEncode (serV (.structValue (runOps ops).json)))) := by
    unfold JwtMacImpl.ComputeMacAndEncode RawJwt.ToString at henc
    injection henc with h
    exact h.symm
  subst hcompact
  have hHdot : ∀ c ∈ CreateHeader m.algorithm, c ≠ 46 := base64_dotfree _
  have hPdot := base64_dotfree (serV (.structValue (runOps ops).json))
  have hTdot := base64_dotfree (m.computeMac
    (CreateHeader m.algorithm ++ 46 ::
      base64UrlEncode (serV (.structValue (runOps ops).json))))
  have h1 := lastDotSplit_append
    (CreateHeader m.algorithm ++ 46 ::
      base64UrlEncode (serV (.structValue (runOps ops).json)))
    (base64UrlEncode (m.computeMac
      (CreateHeader m.algorithm ++ 46 ::
        base64UrlEncode (serV (.structValue (runOps ops).json))))) hTdot
  have h2 := base64UrlDecode_encode _ (hmac
    (CreateHeader m.algorithm ++ 46 ::
      base64UrlEncode (serV (.structValue (runOps ops).json))))
  have h4 := splitOnDot_two (CreateHeader m.algorithm)
    (base64UrlEncode (serV (.structValue (runOps ops).json))) hHdot hPdot
  have h5 := ValidateHeader_CreateHeader m.algorithm halg
  have hpayload : ByteOk (serV (.structValue (runOps ops).json)) :=
    (ser_byteOk _).1 _ le_rfl (by simpa [bytesOkV] using hbytes)
  have h6 := base64UrlDecode_encode _ hpayload
  have hgood : (JsonFields.nodupKeys (runOps ops).json &&
      wfF (runOps ops).json) = true := by
    rw [Bool.and_eq_true]
    exact ⟨(runOps_good ops).1, (runOps_good ops).2⟩
  have h7 : RawJwt.FromString (serV (.structValue (runOps ops).json)) =
      .ok ⟨(runOps ops).json⟩ := by
    unfold RawJwt.FromString
    rw [JsonStringToProtoStruct_ser _ hgood]
  have h8 := validate_ok (runOps ops).json validator hiss hsub haud hwin
  simp only [JwtMacImpl.VerifyMacAndDecode, DecodeSignature, DecodePayload,
    JwtMacImpl.VerifyMacRaw, h1, h2, h4, h5, h6, h7, h8]
  simp

/-- C1 (witness): the roundtrip theorem applied at a concrete MAC, a
concrete one-call builder sequence, and the default validator. -/
theorem c1_roundtrip_witness :
    ∃ compact : Str,
      JwtMacImpl.ComputeMacAndEncode ⟨lit "HS256", fun _ => [7]⟩
          ⟨(runOps [.setExpiration 2]).json⟩ = .ok compact ∧
      JwtMacImpl.VerifyMacAndDecode ⟨lit "HS256", fun _ => [7]⟩ compact {} =
        .ok ⟨⟨(runOps [.setExpiration 2]).json⟩⟩ := by
  refine ⟨_, rfl, ?_⟩
  exact c1_roundtrip ⟨lit "HS256", fun _ => [7]⟩ [.setExpiration 2] {}
    (by decide) (fun msg b hb => by simp at hb; omega) (by decide)
    rfl rfl rfl (by decide)
    ⟨(runOps [.setExpiration 2]).json⟩ rfl _ rfl

/-- C2 (counterexample): flipping the final byte of a produced compact
token (the last character of the encoded tag, `A` → `B`) changes only
the unused trailing bits of the base64url tag encoding; decoding yields
the same tag bytes, the MAC verifies, and verification SUCCEEDS with the
same claim set — refuting "never succeeds". -/
theorem c2_trailing_bits_counterexample :
    JwtMacImpl.ComputeMacAndEncode ⟨lit "HS256", fun _ => [0]⟩
        ⟨(runOps [.setExpiration 2]).json⟩ =
      .ok (lit "eyJhbGciOiJIUzI1NiIsInR5cCI6IkpXVCJ9.eyJleHAiOjJ9.AA") ∧
    JwtMacImpl.VerifyMacAndDecode ⟨lit "HS256", fun _ => [0]⟩
        (lit "eyJhbGciOiJIUzI1NiIsInR5cCI6IkpXVCJ9.eyJleHAiOjJ9.AB") {} =
      .ok ⟨⟨(runOps [.setExpiration 2]).json⟩⟩ := by
  constructor
  · have hser : serV (.structValue (runOps [.setExpiration 2]).json) =
        [123, 34, 101, 120, 112, 34, 58, 50, 125] := by
      simp [serV, serMembers, serMember, serInt, escapeStr, natToDigits,
        natToDigitsAux, runOps, applyOp, RawJwtBuilder.SetExpiration,
        toInt32, JsonFields.set, kJwtClaimExpiration, lit]
    have hhdr : serV (.structValue
        (.cons (lit "alg") (.stringValue (lit "HS256"))
          (.cons (lit "typ") (.stringValue (lit "JWT")) .nil))) =
        lit "\x7b\"alg\":\"HS256\",\"typ\":\"JWT\"\x7d" := by
      simp [serV, serMembers, serMember, escapeStr, lit]
    simp [JwtMacImpl.ComputeMacAndEncode, RawJwt.ToString, CreateHeader,
      EncodePayload, EncodeSignature, hser, hhdr]
    decide
  · decide

/-- **C2** (amended): for an injective MAC primitive returning genuine
tag bytes, flipping one byte of a compact token produced by
`ComputeMacAndEncode` yields `MalformedToken`, or `InvalidMac`, or a
result identical to verifying the unmodified token (the last case arises
from the unused trailing bits of the final base64url tag character, so a
"successful" verification of a modified token carries exactly the
original claims); `AlgorithmMismatch` and other errors cannot arise, and
no modified token verifies to anything the original does not. -/
theorem c2_flip_amended (m : JwtMacImpl) (jwt : RawJwt) (v : JwtValidator)
    (hinj : Function.Injective m.computeMac)
    (hmac : ∀ msg, ByteOk (m.computeMac msg))
    (A B : Str) (x b : Nat) (hbx : b ≠ x)
    (henc : m.ComputeMacAndEncode jwt = .ok (A ++ x :: B)) :
    m.VerifyMacAndDecode (A ++ b :: B) v = .error .malformedToken ∨
    m.VerifyMacAndDecode (A ++ b :: B) v = .error .invalidMac ∨
    m.VerifyMacAndDecode (A ++ b :: B) v =
      m.VerifyMacAndDecode (A ++ x :: B) v := by
  unfold JwtMacImpl.ComputeMacAndEncode RawJwt.ToString EncodePayload
    EncodeSignature at henc
  injection henc with hsplit0
  have hsplit := hsplit0.symm
  set H := CreateHeader m.algorithm with hHdef
  set P := base64UrlEncode (serV (.structValue jwt.json)) with hPdef
  set U := H ++ 46 :: P with hUdef
  set tag := m.computeMac U with htagdef
  set T := base64UrlEncode tag with hTdef
  have hHd : ∀ c ∈ H, c ≠ 46 := by rw [hHdef]; exact base64_dotfree _
  have hPd : ∀ c ∈ P, c ≠ 46 := by rw [hPdef]; exact base64_dotfree _
  have hTd : ∀ c ∈ T, c ≠ 46 := by rw [hTdef]; exact base64_dotfree _
  have hTdec : DecodeSignature T = some tag := by
    rw [hTdef, htagdef]
    exact base64UrlDecode_encode _ (hmac U)
  rcases List.append_eq_append_iff.mp hsplit with ⟨a', hU, hxB⟩ |
    ⟨c', hA, hT2⟩
  · cases a' with
    | nil =>
      rw [List.append_nil] at hU
      rw [List.nil_append] at hxB
      injection hxB with hx hB
      subst hx
      subst hB
      subst hU
      have hb46 : b ≠ 46 := hbx
      have hrw : U ++ b :: T = H ++ 46 :: (P ++ b :: T) := by
        rw [hUdef]; simp
      rw [hrw]
      rcases flip_sep_case m v H P T b hHd hPd hTd hb46 with h | h
      · exact Or.inl h
      · exact Or.inr (Or.inl h)
    | cons y a'' =>
      rw [List.cons_append] at hxB
      injection hxB with hx hB
      subst hx
      subst hB
      right; left
      have hrw : A ++ b :: (a'' ++ 46 :: T) = (A ++ b :: a'') ++ 46 :: T := by
        simp
      rw [hrw]
      have hsp := lastDotSplit_append (A ++ b :: a'') T hTd
      have hne : tag ≠ m.computeMac (A ++ b :: a'') := by
        rw [htagdef]
        intro hc
        have hUeq := hinj hc
        rw [hU] at hUeq
        have hcancel := List.append_cancel_left hUeq
        injection hcancel with hxb
        exact hbx hxb.symm
      simp only [JwtMacImpl.VerifyMacAndDecode, hsp, hTdec,
        JwtMacImpl.VerifyMacRaw]
      rw [if_neg hne]
  · cases c' with
    | nil =>
      rw [List.append_nil] at hA
      rw [List.nil_append] at hT2
      injection hT2 with hx hB
      subst hA
      have hx2 : x = 46 := hx.symm
      subst hx2
      subst hB
      have hb46 : b ≠ 46 := hbx
      have hrw : U ++ b :: T = H ++ 46 :: (P ++ b :: T) := by
        rw [hUdef]; simp
      rw [hrw]
      rcases flip_sep_case m v H P T b hHd hPd hTd hb46 with h | h
      · exact Or.inl h
      · exact Or.inr (Or.inl h)
    | cons z c'' =>
      rw [List.cons_append] at hT2
      injection hT2 with hz hT3
      have hz2 : z = 46 := hz.symm
      subst hz2
      subst hA
      have hc''d : ∀ c ∈ c'', c ≠ 46 := by
        intro c hc
        exact hTd c (by rw [hT3]; exact List.mem_append.mpr (Or.inl hc))
      have hBd : ∀ c ∈ B, c ≠ 46 := by
        intro c hc
        exact hTd c (by rw [hT3]; simp [hc])
      by_cases hb46 : b = 46
      · subst hb46
        have hsp := lastDotSplit_append (U ++ 46 :: c'') B hBd
        have hrw : (U ++ 46 :: c'') ++ 46 :: B = (U ++ 46 :: c'') ++ 46 :: B :=
          rfl
        cases hdec2 : DecodeSignature B with
        | none =>
          left
          simp only [JwtMacImpl.VerifyMacAndDecode, hsp, hdec2]
        | some mac2 =>
          by_cases hm : mac2 = m.computeMac (U ++ 46 :: c'')
          · left
            have hs3 : splitOnDot (U ++ 46 :: c'') = [H, P, c''] := by
              rw [hUdef]
              have h1 : (H ++ 46 :: P) ++ 46 :: c'' =
                  H ++ 46 :: (P ++ 46 :: c'') := by simp
              rw [h1, splitOnDot_first H _ hHd,
                splitOnDot_first P _ hPd, splitOnDot_dotfree c'' hc''d]
            simp only [JwtMacImpl.VerifyMacAndDecode, hsp, hdec2,
              JwtMacImpl.VerifyMacRaw, hm, hs3]
            simp
          · right; left
            simp only [JwtMacImpl.VerifyMacAndDecode, hsp, hdec2,
              JwtMacImpl.VerifyMacRaw]
            rw [if_neg hm]
      · have hrw : (U ++ 46 :: c'') ++ b :: B = U ++ 46 :: (c'' ++ b :: B) := by
          simp
        rw [hrw]
        have htail : ∀ c ∈ c'' ++ b :: B, c ≠ 46 := by
          intro c hc
          rcases List.mem_append.mp hc with h | h
          · exact hc''d c h
          · rcases List.mem_cons.mp h with h | h
            · rw [h]; exact hb46
            · exact hBd c h
        have hsp := lastDotSplit_append U (c'' ++ b :: B) htail
        cases hdec2 : DecodeSignature (c'' ++ b :: B) with
        | none =>
          left
          simp only [JwtMacImpl.VerifyMacAndDecode, hsp, hdec2]
        | some mac2 =>
          by_cases hm : mac2 = m.computeMac U
          · right; right
            have hrw2 : (U ++ 46 :: c'') ++ x :: B = U ++ 46 :: T := by
              rw [hT3]; simp
            rw [hrw2]
            have hsporig := lastDotSplit_append U T hTd
            subst hm
            simp only [JwtMacImpl.VerifyMacAndDecode, hsp, hsporig,
              hdec2, hTdec, htagdef, JwtMacImpl.VerifyMacRaw]
          · right; left
            simp only [JwtMacImpl.VerifyMacAndDecode, hsp, hdec2,
              JwtMacImpl.VerifyMacRaw]
            rw [if_neg hm]

set_option maxRecDepth 8000 in
/-- C2 (witness): the amended theorem applied at the injective digit MAC
and a concrete one-call builder sequence, flipping the first byte of the
produced compact token (`101`, the letter `e`) to `66` (`B`). -/
theorem c2_flip_amended_witness :
    JwtMacImpl.ComputeMacAndEncode ⟨lit "HS256", digitsMac⟩
        ⟨(runOps [.setExpiration 2]).json⟩ =
      .ok ([] ++ 101 :: lit "yJhbGciOiJIUzI1NiIsInR5cCI6IkpXVCJ9.eyJleHAiOjJ9.MTAxLDEyMSw3NCwxMDQsOTgsNzEsOTksMTA1LDc5LDEwNSw3NCw3Myw4NSwxMjIsNzMsNDksNzgsMTA1LDczLDExNSw3MywxMTAsODIsNTMsOTksNjcsNzMsNTQsNzMsMTA3LDExMiw4OCw4Niw2Nyw3NCw1Nyw0NiwxMDEsMTIxLDc0LDEwOCwxMDEsNzIsNjUsMTA1LDc5LDEwNiw3NCw1Nyw") ∧
    (JwtMacImpl.VerifyMacAndDecode ⟨lit "HS256", digitsMac⟩
        ([] ++ 66 :: lit "yJhbGciOiJIUzI1NiIsInR5cCI6IkpXVCJ9.eyJleHAiOjJ9.MTAxLDEyMSw3NCwxMDQsOTgsNzEsOTksMTA1LDc5LDEwNSw3NCw3Myw4NSwxMjIsNzMsNDksNzgsMTA1LDczLDExNSw3MywxMTAsODIsNTMsOTksNjcsNzMsNTQsNzMsMTA3LDExMiw4OCw4Niw2Nyw3NCw1Nyw0NiwxMDEsMTIxLDc0LDEwOCwxMDEsNzIsNjUsMTA1LDc5LDEwNiw3NCw1Nyw") {} = .error .malformedToken ∨
      JwtMacImpl.VerifyMacAndDecode ⟨lit "HS256", digitsMac⟩
        ([] ++ 66 :: lit "yJhbGciOiJIUzI1NiIsInR5cCI6IkpXVCJ9.eyJleHAiOjJ9.MTAxLDEyMSw3NCwxMDQsOTgsNzEsOTksMTA1LDc5LDEwNSw3NCw3Myw4NSwxMjIsNzMsNDksNzgsMTA1LDczLDExNSw3MywxMTAsODIsNTMsOTksNjcsNzMsNTQsNzMsMTA3LDExMiw4OCw4Niw2Nyw3NCw1Nyw0NiwxMDEsMTIxLDc0LDEwOCwxMDEsNzIsNjUsMTA1LDc5LDEwNiw3NCw1Nyw") {} = .error .invalidMac ∨
      JwtMacImpl.VerifyMacAndDecode ⟨lit "HS256", digitsMac⟩
        ([] ++ 66 :: lit "yJhbGciOiJIUzI1NiIsInR5cCI6IkpXVCJ9.eyJleHAiOjJ9.MTAxLDEyMSw3NCwxMDQsOTgsNzEsOTksMTA1LDc5LDEwNSw3NCw3Myw4NSwxMjIsNzMsNDksNzgsMTA1LDczLDExNSw3MywxMTAsODIsNTMsOTksNjcsNzMsNTQsNzMsMTA3LDExMiw4OCw4Niw2Nyw3NCw1Nyw0NiwxMDEsMTIxLDc0LDEwOCwxMDEsNzIsNjUsMTA1LDc5LDEwNiw3NCw1Nyw") {} =
        JwtMacImpl.VerifyMacAndDecode ⟨lit "HS256", digitsMac⟩
          ([] ++ 101 :: lit "yJhbGciOiJIUzI1NiIsInR5cCI6IkpXVCJ9.eyJleHAiOjJ9.MTAxLDEyMSw3NCwxMDQsOTgsNzEsOTksMTA1LDc5LDEwNSw3NCw3Myw4NSwxMjIsNzMsNDksNzgsMTA1LDczLDExNSw3MywxMTAsODIsNTMsOTksNjcsNzMsNTQsNzMsMTA3LDExMiw4OCw4Niw2Nyw3NCw1Nyw0NiwxMDEsMTIxLDc0LDEwOCwxMDEsNzIsNjUsMTA1LDc5LDEwNiw3NCw1Nyw") {}) := by
  have hser : serV (.structValue (runOps [.setExpiration 2]).json) =
      [123, 34, 101, 120, 112, 34, 58, 50, 125] := by
    simp [serV, serMembers, serMember, serInt, escapeStr, natToDigits,
      natToDigitsAux, runOps, applyOp, RawJwtBuilder.SetExpiration,
      toInt32, JsonFields.set, kJwtClaimExpiration, lit]
  have hhdr : serV (.structValue
      (.cons (lit "alg") (.stringValue (lit "HS256"))
        (.cons (lit "typ") (.stringValue (lit "JWT")) .nil))) =
      lit "\x7b\"alg\":\"HS256\",\"typ\":\"JWT\"\x7d" := by
    simp [serV, serMembers, serMember, escapeStr, lit]
  have h1 : JwtMacImpl.ComputeMacAndEncode ⟨lit "HS256", digitsMac⟩
      ⟨(runOps [.setExpiration 2]).json⟩ =
      .ok ([] ++ 101 :: lit "yJhbGciOiJIUzI1NiIsInR5cCI6IkpXVCJ9.eyJleHAiOjJ9.MTAxLDEyMSw3NCwxMDQsOTgsNzEsOTksMTA1LDc5LDEwNSw3NCw3Myw4NSwxMjIsNzMsNDksNzgsMTA1LDczLDExNSw3MywxMTAsODIsNTMsOTksNjcsNzMsNTQsNzMsMTA3LDExMiw4OCw4Niw2Nyw3NCw1Nyw0NiwxMDEsMTIxLDc0LDEwOCwxMDEsNzIsNjUsMTA1LDc5LDEwNiw3NCw1Nyw") := by
    unfold JwtMacImpl.ComputeMacAndEncode RawJwt.ToString CreateHeader
      EncodePayload EncodeSignature
    rw [hser, hhdr]
    decide
  exact ⟨h1, c2_flip_amended ⟨lit "HS256", digitsMac⟩
    ⟨(runOps [.setExpiration 2]).json⟩ {} digitsMac_inj digitsMac_byteOk
    [] (lit "yJhbGciOiJIUzI1NiIsInR5cCI6IkpXVCJ9.eyJleHAiOjJ9.MTAxLDEyMSw3NCwxMDQsOTgsNzEsOTksMTA1LDc5LDEwNSw3NCw3Myw4NSwxMjIsNzMsNDksNzgsMTA1LDczLDExNSw3MywxMTAsODIsNTMsOTksNjcsNzMsNTQsNzMsMTA3LDExMiw4OCw4Niw2Nyw3NCw1Nyw0NiwxMDEsMTIxLDc0LDEwOCwxMDEsNzIsNjUsMTA1LDc5LDEwNiw3NCw1Nyw")
    101 66 (by decide) h1⟩

end Tink
